import Mathlib

/-!
Verification of the PCM core of alsa-lib (`src/pcm/pcm.c`) against its
natural-language specification.

The C source is shallowly embedded: every definition below is translated from
the corresponding function of `src/pcm/pcm.c`.  Machine integers are modelled
as `Nat`/`Int` (no value overflows in the properties considered), byte memory
as `Nat → Nat` maps, and the opaque backend operation tables as explicit
result fields / result traces supplied to the functions.  Helper functions of
the repository that live outside `src/pcm/pcm.c` (the header inlines and
`pcm_misc.c`) are modelled from the specification and are marked as such in
their doc comments.
-/

namespace AlsaPcm

/-- Stream direction, from `snd_pcm_stream_t` (playback / capture). -/
inductive Stream where
  | playback
  | capture
deriving DecidableEq, Repr

/-- PCM states, from `snd_pcm_state_t`.  Modelled from the spec (§4.6): the
enum itself is declared in a header outside `src/`; the numeric order below
keeps `open < setup < prepared` which is all the source relies on
(`snd_pcm_hw_free` asserts `state <= SND_PCM_STATE_PREPARED`). -/
inductive PcmState where
  | «open»
  | setup
  | prepared
  | running
  | xrun
  | draining
  | paused
  | disconnected
deriving DecidableEq, Repr

/-- Numeric value of a state, for the `state <= PREPARED` comparison. -/
def PcmState.toNat : PcmState → Nat
  | .«open» => 0
  | .setup => 1
  | .prepared => 2
  | .running => 3
  | .xrun => 4
  | .draining => 5
  | .paused => 6
  | .disconnected => 7

/-- Start mode, from `snd_pcm_start_t` (`EXPLICIT` / `DATA`). -/
inductive StartMode where
  | explicit
  | data
deriving DecidableEq, Repr

/-- Error numbers used by the source (`-EPIPE`, `-EBADFD`, `-EAGAIN`). -/
def EPIPE : Int := 32

def EBADFD : Int := 77

def EAGAIN : Int := 11

/-- The PCM endpoint object (`snd_pcm_t`), restricted to the fields this file
reasons about.  The two backend operation tables (`ops` / `fast_ops`) are
opaque in the source; their calls are modelled by the plain result fields
(`dropRes`, `drainRes`, …): invoking the backend operation yields the
corresponding result value. -/
structure Pcm where
  stream : Stream
  /-- true iff `mode & SND_PCM_NONBLOCK` is set -/
  nonblock : Bool
  setup : Bool
  state : PcmState
  start_mode : StartMode
  xfer_align : Nat
  frame_bits : Nat
  sample_bits : Nat
  /-- true iff `pcm->mmap_channels` is non-NULL -/
  mmap_channels : Bool
  dropRes : Int
  drainRes : Int
  munmapRes : Int
  hwFreeRes : Int
  closeRes : Int
  prepareRes : Int
  startRes : Int
  pauseRes : Int
  resetRes : Int
  rewindRes : Int
  hwParamsRes : Int
deriving DecidableEq, Repr

/-! ## Byte / frame / sample conversions (`snd_pcm_bytes_to_frames` etc.)

The C functions `assert(pcm->setup)`; an assertion failure is modelled as
`none`.  C integer division on the signed types truncates toward zero, which
is `Int.tdiv`. -/

/-- `snd_pcm_bytes_to_frames`: `bytes * 8 / pcm->frame_bits` under
`assert(pcm && pcm->setup)`. -/
def snd_pcm_bytes_to_frames (pcm : Pcm) (bytes : Int) : Option Int :=
  if pcm.setup then some (Int.tdiv (bytes * 8) pcm.frame_bits) else none

/-- `snd_pcm_frames_to_bytes`: `frames * pcm->frame_bits / 8` under
`assert(pcm && pcm->setup)`. -/
def snd_pcm_frames_to_bytes (pcm : Pcm) (frames : Int) : Option Int :=
  if pcm.setup then some (Int.tdiv (frames * pcm.frame_bits) 8) else none

/-! ## Teardown and state-transition entry points

`snd_pcm_close`, `snd_pcm_hw_free` and the thin vtable dispatchers.  Each
`assert` of the source is modelled as a `none` result; the observable backend
calls are recorded as an event trace. -/

/-- Observable steps taken by the teardown path. -/
inductive CloseEv where
  | drop
  | drain
  | munmap
  | hwFree
  | backendClose
  | destroy
deriving DecidableEq, Repr

/-- `snd_pcm_hw_free`: asserts `pcm->setup` and
`snd_pcm_state(pcm) <= SND_PCM_STATE_PREPARED`; unmaps if
`pcm->mmap_channels` is set (returning the munmap error early on failure),
then invokes the backend `hw_free` operation and clears `setup`.  Result:
the event trace and the returned error code. -/
def snd_pcm_hw_free (pcm : Pcm) : Option (List CloseEv × Int) :=
  if pcm.setup ∧ pcm.state.toNat ≤ PcmState.prepared.toNat then
    if pcm.mmap_channels then
      if pcm.munmapRes < 0 then some ([.munmap], pcm.munmapRes)
      else some ([.munmap, .hwFree], pcm.hwFreeRes)
    else some ([.hwFree], pcm.hwFreeRes)
  else none

/-- `snd_pcm_close`: if `setup` is set, stop the stream (`drop` when
non-blocking or capture, `drain` otherwise) and call `snd_pcm_hw_free`, then
invoke the backend `close` operation, free the object and return 0.  Errors
of the intermediate steps are accumulated into a local that the final
`return 0` discards.  `drop`/`drain` leave the stream in SETUP state
(spec §4.6), so the `hw_free` state assertion passes; the post-stop state is
modelled accordingly. -/
def snd_pcm_close (pcm : Pcm) : Option (List CloseEv × Int) :=
  if pcm.setup then
    let stop : List CloseEv :=
      if pcm.nonblock ∨ pcm.stream = Stream.capture then [.drop] else [.drain]
    match snd_pcm_hw_free { pcm with state := PcmState.setup } with
    | none => none
    | some (evs, _) => some (stop ++ evs ++ [.backendClose, .destroy], 0)
  else
    some ([.backendClose, .destroy], 0)

/-- `snd_pcm_prepare`: `assert(pcm); assert(pcm->setup);` then fast-ops
dispatch. -/
def snd_pcm_prepare (pcm : Pcm) : Option Int :=
  if pcm.setup then some pcm.prepareRes else none

/-- `snd_pcm_start`: `assert(pcm); assert(pcm->setup);` then fast-ops
dispatch. -/
def snd_pcm_start (pcm : Pcm) : Option Int :=
  if pcm.setup then some pcm.startRes else none

/-- `snd_pcm_drop`: `assert(pcm); assert(pcm->setup);` then fast-ops
dispatch. -/
def snd_pcm_drop (pcm : Pcm) : Option Int :=
  if pcm.setup then some pcm.dropRes else none

/-- `snd_pcm_drain`: `assert(pcm); assert(pcm->setup);` then fast-ops
dispatch. -/
def snd_pcm_drain (pcm : Pcm) : Option Int :=
  if pcm.setup then some pcm.drainRes else none

/-- `snd_pcm_pause`: `assert(pcm); assert(pcm->setup);` then fast-ops
dispatch. -/
def snd_pcm_pause (pcm : Pcm) (_enable : Bool) : Option Int :=
  if pcm.setup then some pcm.pauseRes else none

/-- `snd_pcm_reset`: `assert(pcm); assert(pcm->setup);` then fast-ops
dispatch. -/
def snd_pcm_reset (pcm : Pcm) : Option Int :=
  if pcm.setup then some pcm.resetRes else none

/-- `snd_pcm_rewind`: `assert(pcm); assert(pcm->setup); assert(frames > 0);`
then fast-ops dispatch. -/
def snd_pcm_rewind (pcm : Pcm) (frames : Nat) : Option Int :=
  if pcm.setup ∧ 0 < frames then some pcm.rewindRes else none

/-- Modelled from the spec: `_snd_pcm_hw_params` lives outside `src/`
(§4.3: on success the chosen configuration is written back and `setup`
becomes true; on failure the endpoint is unchanged).  The backend outcome is
the `hwParamsRes` field. -/
def _snd_pcm_hw_params (pcm : Pcm) : Pcm × Int :=
  if 0 ≤ pcm.hwParamsRes then ({ pcm with setup := true }, pcm.hwParamsRes)
  else (pcm, pcm.hwParamsRes)

/-- `snd_pcm_hw_params`: `assert(pcm && params)` only (no `setup` assertion);
runs `_snd_pcm_hw_params` and on success `snd_pcm_prepare`. -/
def snd_pcm_hw_params (pcm : Pcm) : Option Int :=
  let (pcm', err) := _snd_pcm_hw_params pcm
  if 0 ≤ err then snd_pcm_prepare pcm' else some err

/-! ## The transfer engine (`snd_pcm_write_areas` / `snd_pcm_read_areas`)

The loops interact with the backend through `snd_pcm_avail_update`,
`snd_pcm_wait`, `snd_pcm_state` and `snd_pcm_start`, and with the caller
through the `func` transfer callback.  These interactions are modelled by an
environment of result lists, consumed in call order; `none` means the
environment ran out (or the fuel bounding the possibly-unbounded blocking
loop did).  The source asserts that a successful callback returns exactly
the requested frame count (`assert((snd_pcm_uframes_t)err == frames)`), so a
non-negative callback result stands for `frames` transferred.  `setup` is
asserted by the `snd_pcm_writei`/`readi`/`writen`/`readn` wrappers before
these loops run. -/

/-- Backend/callback results consumed by one run of a transfer loop. -/
structure XferEnv where
  /-- results of successive `snd_pcm_avail_update` calls -/
  avail : List Int
  /-- results of successive `snd_pcm_wait(pcm, -1)` calls -/
  waitRes : List Int
  /-- `snd_pcm_state` results re-read after each successful wait -/
  waitState : List PcmState
  /-- results of successive `func` transfer-callback calls -/
  funcRes : List Int
  /-- results of successive `snd_pcm_start` calls -/
  startRes : List Int
deriving DecidableEq, Repr

/-- Exit state of a transfer loop: the local variables `xfer` and `err` at
the `_end` label, the frame counts of the successful callback invocations,
and whether the exit was the non-blocking `-EAGAIN` path. -/
structure XferOut where
  xfer : Nat
  err : Int
  transfers : List Nat
  blockedNB : Bool
deriving DecidableEq, Repr

/-- `size > pcm->xfer_align ? size - size % pcm->xfer_align : size`, the
rounding applied to `size` (and, inside the loop, to `avail`). -/
def roundToAlign (align size : Nat) : Nat :=
  if align < size then size - size % align else size

/-- The `while (size > 0)` loop of `snd_pcm_write_areas` (pcm.c:1553-1608).
`state` is the local state variable (refreshed only after a successful
wait), `xfer`/`err` the accumulators, `acc` the successful callback frame
counts so far. -/
def snd_pcm_write_areas_loop (pcm : Pcm) :
    Nat → PcmState → Nat → Nat → Int → List Nat → XferEnv → Option XferOut
  | fuel, state, size, xfer, err, acc, env =>
    if size = 0 then some ⟨xfer, err, acc, false⟩
    else match fuel with
    | 0 => none
    | fuel + 1 =>
      match env.avail with
      | [] => none
      | a :: arest =>
        let env := { env with avail := arest }
        if a < 0 then some ⟨xfer, -EPIPE, acc, false⟩
        else
          let aN := a.toNat
          if state = PcmState.prepared ∧ aN = 0 then
            some ⟨xfer, -EPIPE, acc, false⟩
          else if state ≠ PcmState.prepared ∧
              (aN = 0 ∨ (pcm.xfer_align ≤ size ∧ aN < pcm.xfer_align)) then
            if pcm.nonblock then some ⟨xfer, -EAGAIN, acc, true⟩
            else
              match env.waitRes, env.waitState with
              | w :: wrest, s :: srest =>
                if w < 0 then some ⟨xfer, w, acc, false⟩
                else snd_pcm_write_areas_loop pcm fuel s size xfer w acc
                  { env with waitRes := wrest, waitState := srest }
              | _, _ => none
          else
            let avail2 := roundToAlign pcm.xfer_align aN
            let frames := min size avail2
            match env.funcRes with
            | [] => none
            | r :: frest =>
              let env := { env with funcRes := frest }
              if r < 0 then some ⟨xfer, r, acc, false⟩
              else
                let xfer' := xfer + frames
                let size' := size - frames
                let acc' := acc ++ [frames]
                if state = PcmState.prepared ∧ pcm.start_mode = StartMode.data then
                  match env.startRes with
                  | [] => none
                  | s :: srest =>
                    if s < 0 then some ⟨xfer', s, acc', false⟩
                    else snd_pcm_write_areas_loop pcm fuel state size' xfer' s acc'
                      { env with startRes := srest }
                else snd_pcm_write_areas_loop pcm fuel state size' xfer' r acc' env

/-- `snd_pcm_write_areas` up to the `_end` label: the `size == 0` early
return, the `xfer_align` rounding of `size`, the entry-state switch, then
the loop.  Early returns are presented as `XferOut` values with the frame
count and error they reach `_end` with. -/
def snd_pcm_write_areas_run (pcm : Pcm) (state0 : PcmState) (size0 fuel : Nat)
    (env : XferEnv) : Option XferOut :=
  if size0 = 0 then some ⟨0, 0, [], false⟩
  else
    let size := roundToAlign pcm.xfer_align size0
    match state0 with
    | .prepared | .running => snd_pcm_write_areas_loop pcm fuel state0 size 0 0 [] env
    | .xrun => some ⟨0, -EPIPE, [], false⟩
    | _ => some ⟨0, -EBADFD, [], false⟩

/-- `snd_pcm_write_areas`: the returned value,
`xfer > 0 ? xfer : err` at `_end` (pcm.c:1610). -/
def snd_pcm_write_areas (pcm : Pcm) (state0 : PcmState) (size0 fuel : Nat)
    (env : XferEnv) : Option Int :=
  (snd_pcm_write_areas_run pcm state0 size0 fuel env).map
    (fun o => if 0 < o.xfer then (o.xfer : Int) else o.err)

/-- The `while (size > 0)` loop of `snd_pcm_read_areas` (pcm.c:1476-1525):
as the write loop, with `DRAINING` in place of `PREPARED` in the
`avail == 0` end-of-stream check and without the auto-start step. -/
def snd_pcm_read_areas_loop (pcm : Pcm) :
    Nat → PcmState → Nat → Nat → Int → List Nat → XferEnv → Option XferOut
  | fuel, state, size, xfer, err, acc, env =>
    if size = 0 then some ⟨xfer, err, acc, false⟩
    else match fuel with
    | 0 => none
    | fuel + 1 =>
      match env.avail with
      | [] => none
      | a :: arest =>
        let env := { env with avail := arest }
        if a < 0 then some ⟨xfer, -EPIPE, acc, false⟩
        else
          let aN := a.toNat
          if state = PcmState.draining ∧ aN = 0 then
            some ⟨xfer, -EPIPE, acc, false⟩
          else if state ≠ PcmState.draining ∧
              (aN = 0 ∨ (pcm.xfer_align ≤ size ∧ aN < pcm.xfer_align)) then
            if pcm.nonblock then some ⟨xfer, -EAGAIN, acc, true⟩
            else
              match env.waitRes, env.waitState with
              | w :: wrest, s :: srest =>
                if w < 0 then some ⟨xfer, w, acc, false⟩
                else snd_pcm_read_areas_loop pcm fuel s size xfer w acc
                  { env with waitRes := wrest, waitState := srest }
              | _, _ => none
          else
            let avail2 := roundToAlign pcm.xfer_align aN
            let frames := min size avail2
            match env.funcRes with
            | [] => none
            | r :: frest =>
              let env := { env with funcRes := frest }
              if r < 0 then some ⟨xfer, r, acc, false⟩
              else snd_pcm_read_areas_loop pcm fuel state (size - frames)
                (xfer + frames) r (acc ++ [frames]) env

/-- `snd_pcm_read_areas` up to `_end`: early returns, rounding, the
entry-state switch (reads additionally accept `DRAINING`, and a read entered
in `PREPARED` with `start_mode == DATA` first calls `snd_pcm_start`), then
the loop. -/
def snd_pcm_read_areas_run (pcm : Pcm) (state0 : PcmState) (size0 fuel : Nat)
    (env : XferEnv) : Option XferOut :=
  if size0 = 0 then some ⟨0, 0, [], false⟩
  else
    let size := roundToAlign pcm.xfer_align size0
    match state0 with
    | .prepared =>
      if pcm.start_mode = StartMode.data then
        match env.startRes with
        | [] => none
        | s :: srest =>
          if s < 0 then some ⟨0, s, [], false⟩
          else snd_pcm_read_areas_loop pcm fuel PcmState.prepared size 0 0 []
            { env with startRes := srest }
      else snd_pcm_read_areas_loop pcm fuel PcmState.prepared size 0 0 [] env
    | .draining | .running => snd_pcm_read_areas_loop pcm fuel state0 size 0 0 [] env
    | .xrun => some ⟨0, -EPIPE, [], false⟩
    | _ => some ⟨0, -EBADFD, [], false⟩

/-- `snd_pcm_read_areas`: the returned value,
`xfer > 0 ? xfer : err` at `_end` (pcm.c:1527). -/
def snd_pcm_read_areas (pcm : Pcm) (state0 : PcmState) (size0 fuel : Nat)
    (env : XferEnv) : Option Int :=
  (snd_pcm_read_areas_run pcm state0 size0 fuel env).map
    (fun o => if 0 < o.xfer then (o.xfer : Int) else o.err)

/-- Loop invariant of the write loop: the `xfer` accumulator counts exactly
the frames of the successful callback invocations, and the non-blocking
would-block exit carries `-EAGAIN` and can only happen in non-blocking
mode. -/
theorem snd_pcm_write_areas_loop_inv (pcm : Pcm) :
    ∀ fuel state size xfer err acc env out,
      snd_pcm_write_areas_loop pcm fuel state size xfer err acc env = some out →
      out.xfer + acc.sum = xfer + out.transfers.sum ∧
      (out.blockedNB = true → pcm.nonblock = true ∧ out.err = -EAGAIN) := by
  intro fuel
  induction fuel with
  | zero =>
    intro state size xfer err acc env out h
    simp only [snd_pcm_write_areas_loop] at h
    split at h
    · cases h
      exact ⟨rfl, by simp⟩
    · exact Option.noConfusion h
  | succ n ih =>
    intro state size xfer err acc env out h
    simp only [snd_pcm_write_areas_loop] at h
    split at h
    · cases h
      exact ⟨rfl, by simp⟩
    split at h
    · exact Option.noConfusion h
    split at h
    · cases h
      exact ⟨rfl, by simp⟩
    split at h
    · cases h
      exact ⟨rfl, by simp⟩
    split at h
    · split at h
      · cases h
        next _ hnb =>
          exact ⟨rfl, fun _ => ⟨hnb, rfl⟩⟩
      · split at h
        · split at h
          · cases h
            exact ⟨rfl, by simp⟩
          · exact (ih _ _ _ _ _ _ _ h)
        · exact Option.noConfusion h
    · split at h
      · exact Option.noConfusion h
      split at h
      · cases h
        exact ⟨rfl, by simp⟩
      split at h
      · split at h
        · exact Option.noConfusion h
        split at h
        · cases h
          refine ⟨?_, by simp⟩
          simp
          omega
        · have := ih _ _ _ _ _ _ _ h
          simp at this
          refine ⟨?_, this.2⟩
          omega
      · have := ih _ _ _ _ _ _ _ h
        simp at this
        refine ⟨?_, this.2⟩
        omega

/-- Loop invariant of the read loop, as for the write loop. -/
theorem snd_pcm_read_areas_loop_inv (pcm : Pcm) :
    ∀ fuel state size xfer err acc env out,
      snd_pcm_read_areas_loop pcm fuel state size xfer err acc env = some out →
      out.xfer + acc.sum = xfer + out.transfers.sum ∧
      (out.blockedNB = true → pcm.nonblock = true ∧ out.err = -EAGAIN) := by
  intro fuel
  induction fuel with
  | zero =>
    intro state size xfer err acc env out h
    simp only [snd_pcm_read_areas_loop] at h
    split at h
    · cases h
      exact ⟨rfl, by simp⟩
    · exact Option.noConfusion h
  | succ n ih =>
    intro state size xfer err acc env out h
    simp only [snd_pcm_read_areas_loop] at h
    split at h
    · cases h
      exact ⟨rfl, by simp⟩
    split at h
    · exact Option.noConfusion h
    split at h
    · cases h
      exact ⟨rfl, by simp⟩
    split at h
    · cases h
      exact ⟨rfl, by simp⟩
    split at h
    · split at h
      · cases h
        next _ hnb =>
          exact ⟨rfl, fun _ => ⟨hnb, rfl⟩⟩
      · split at h
        · split at h
          · cases h
            exact ⟨rfl, by simp⟩
          · exact (ih _ _ _ _ _ _ _ h)
        · exact Option.noConfusion h
    · split at h
      · exact Option.noConfusion h
      split at h
      · cases h
        exact ⟨rfl, by simp⟩
      · have := ih _ _ _ _ _ _ _ h
        simp at this
        refine ⟨?_, this.2⟩
        omega

/-- A concrete endpoint used to instantiate hypotheses of the transfer-loop
theorems. -/
def pcmW : Pcm :=
  { stream := Stream.playback, nonblock := false, setup := true,
    state := PcmState.running, start_mode := StartMode.explicit,
    xfer_align := 2, frame_bits := 32, sample_bits := 16,
    mmap_channels := false, dropRes := 0, drainRes := 0, munmapRes := 0,
    hwFreeRes := 0, closeRes := 0, prepareRes := 0, startRes := 0,
    pauseRes := 0, resetRes := 0, rewindRes := 0, hwParamsRes := 0 }

/-- Claim C1: for every endpoint and every call to the transfer loops
`snd_pcm_write_areas` / `snd_pcm_read_areas`, the value returned is the total
number of frames transferred (the sum of the frame counts handed to
successful transfer callbacks) when that total is positive, and otherwise
the first error encountered — the error each exit path leaves the loop with
the moment it occurs; in particular, in non-blocking mode a call that would
block returns `-EAGAIN` when zero frames have moved and the so-far
transferred count when some frames have moved. -/
theorem transfer_loops_return_total_or_first_error :
    (∀ (pcm : Pcm) (state0 : PcmState) (size0 fuel : Nat) (env : XferEnv)
        (out : XferOut),
      snd_pcm_write_areas_run pcm state0 size0 fuel env = some out →
      out.xfer = out.transfers.sum ∧
      snd_pcm_write_areas pcm state0 size0 fuel env =
        some (if 0 < out.transfers.sum then (out.transfers.sum : Int) else out.err) ∧
      (out.blockedNB = true →
        pcm.nonblock = true ∧
        snd_pcm_write_areas pcm state0 size0 fuel env =
          some (if 0 < out.transfers.sum then (out.transfers.sum : Int) else -EAGAIN))) ∧
    (∀ (pcm : Pcm) (state0 : PcmState) (size0 fuel : Nat) (env : XferEnv)
        (out : XferOut),
      snd_pcm_read_areas_run pcm state0 size0 fuel env = some out →
      out.xfer = out.transfers.sum ∧
      snd_pcm_read_areas pcm state0 size0 fuel env =
        some (if 0 < out.transfers.sum then (out.transfers.sum : Int) else out.err) ∧
      (out.blockedNB = true →
        pcm.nonblock = true ∧
        snd_pcm_read_areas pcm state0 size0 fuel env =
          some (if 0 < out.transfers.sum then (out.transfers.sum : Int) else -EAGAIN))) := by
  constructor
  · intro pcm state0 size0 fuel env out h
    have hsum : out.xfer = out.transfers.sum ∧
        (out.blockedNB = true → pcm.nonblock = true ∧ out.err = -EAGAIN) := by
      unfold snd_pcm_write_areas_run at h
      split at h
      · cases h
        exact ⟨rfl, by simp⟩
      · split at h
        · have := snd_pcm_write_areas_loop_inv pcm _ _ _ _ _ _ _ _ h
          simpa using this
        · have := snd_pcm_write_areas_loop_inv pcm _ _ _ _ _ _ _ _ h
          simpa using this
        · cases h
          exact ⟨rfl, by simp⟩
        · cases h
          exact ⟨rfl, by simp⟩
    obtain ⟨hx, hblk⟩ := hsum
    have hres : snd_pcm_write_areas pcm state0 size0 fuel env =
        some (if 0 < out.transfers.sum then (out.transfers.sum : Int) else out.err) := by
      unfold snd_pcm_write_areas
      rw [h]
      simp only [Option.map]
      rw [hx]
    refine ⟨hx, hres, fun hb => ?_⟩
    obtain ⟨hnb, herr⟩ := hblk hb
    exact ⟨hnb, by rw [hres, herr]⟩
  · intro pcm state0 size0 fuel env out h
    have hsum : out.xfer = out.transfers.sum ∧
        (out.blockedNB = true → pcm.nonblock = true ∧ out.err = -EAGAIN) := by
      unfold snd_pcm_read_areas_run at h
      split at h
      · cases h
        exact ⟨rfl, by simp⟩
      · split at h
        · split at h
          · split at h
            · exact Option.noConfusion h
            · split at h
              · cases h
                exact ⟨rfl, by simp⟩
              · have := snd_pcm_read_areas_loop_inv pcm _ _ _ _ _ _ _ _ h
                simpa using this
          · have := snd_pcm_read_areas_loop_inv pcm _ _ _ _ _ _ _ _ h
            simpa using this
        · have := snd_pcm_read_areas_loop_inv pcm _ _ _ _ _ _ _ _ h
          simpa using this
        · have := snd_pcm_read_areas_loop_inv pcm _ _ _ _ _ _ _ _ h
          simpa using this
        · cases h
          exact ⟨rfl, by simp⟩
        · cases h
          exact ⟨rfl, by simp⟩
    obtain ⟨hx, hblk⟩ := hsum
    have hres : snd_pcm_read_areas pcm state0 size0 fuel env =
        some (if 0 < out.transfers.sum then (out.transfers.sum : Int) else out.err) := by
      unfold snd_pcm_read_areas
      rw [h]
      simp only [Option.map]
      rw [hx]
    refine ⟨hx, hres, fun hb => ?_⟩
    obtain ⟨hnb, herr⟩ := hblk hb
    exact ⟨hnb, by rw [hres, herr]⟩

/-- Witness for C1: a non-blocking write on a full ring transfers one burst
of 4 frames, then would block; the call returns 4, the so-far count. -/
theorem transfer_loops_return_total_or_first_error_witness :
    (⟨4, -EAGAIN, [4], true⟩ : XferOut).xfer =
      (⟨4, -EAGAIN, [4], true⟩ : XferOut).transfers.sum ∧
    snd_pcm_write_areas { pcmW with nonblock := true } PcmState.running 8 5
        ⟨[4, 0], [], [], [4], []⟩ =
      some (if 0 < ([4] : List Nat).sum then (([4] : List Nat).sum : Int)
            else (⟨4, -EAGAIN, [4], true⟩ : XferOut).err) ∧
    ((⟨4, -EAGAIN, [4], true⟩ : XferOut).blockedNB = true →
      ({ pcmW with nonblock := true } : Pcm).nonblock = true ∧
      snd_pcm_write_areas { pcmW with nonblock := true } PcmState.running 8 5
          ⟨[4, 0], [], [], [4], []⟩ =
        some (if 0 < ([4] : List Nat).sum then (([4] : List Nat).sum : Int) else -EAGAIN)) :=
  transfer_loops_return_total_or_first_error.1
    { pcmW with nonblock := true } PcmState.running 8 5 ⟨[4, 0], [], [], [4], []⟩
    ⟨4, -EAGAIN, [4], true⟩ rfl

/-- `avail` rounded down to a multiple of `xfer_align` still at least
`xfer_align` when it started there. -/
theorem roundToAlign_le (align a : Nat) (h : align ≤ a) :
    align ≤ roundToAlign align a := by
  unfold roundToAlign
  split
  · rcases Nat.eq_zero_or_pos align with h0 | hpos
    · omega
    · have hdm := Nat.div_add_mod a align
      have h1 : 1 ≤ a / align := (Nat.one_le_div_iff hpos).mpr h
      have h2 : align * 1 ≤ align * (a / align) := Nat.mul_le_mul_left align h1
      omega
  · exact h

/-- Claim C2: a write entered in state PREPARED for which `avail_update`
reports 0 available frames returns `-EPIPE` (Xrun), and a read whose loop
state is DRAINING with `avail_update` reporting 0 returns `-EPIPE` as
end-of-stream marker; neither case blocks (no `wait` result is consumed)
nor returns `-EAGAIN`, in blocking and non-blocking mode alike. -/
theorem prepared_write_draining_read_avail_zero_xrun :
    (∀ (pcm : Pcm) (size0 fuel : Nat) (arest wr fr sr : List Int)
        (ws : List PcmState),
      0 < roundToAlign pcm.xfer_align size0 →
      snd_pcm_write_areas pcm PcmState.prepared size0 (fuel + 1)
        ⟨0 :: arest, wr, ws, fr, sr⟩ = some (-EPIPE)) ∧
    (∀ (pcm : Pcm) (size0 fuel : Nat) (arest wr fr sr : List Int)
        (ws : List PcmState),
      0 < roundToAlign pcm.xfer_align size0 →
      snd_pcm_read_areas pcm PcmState.draining size0 (fuel + 1)
        ⟨0 :: arest, wr, ws, fr, sr⟩ = some (-EPIPE)) := by
  constructor
  · intro pcm size0 fuel arest wr fr sr ws hround
    have hsz : ¬size0 = 0 := by
      intro h
      rw [h] at hround
      simp [roundToAlign] at hround
    unfold snd_pcm_write_areas snd_pcm_write_areas_run
    rw [if_neg hsz]
    simp only [snd_pcm_write_areas_loop]
    rw [if_neg (by omega : ¬roundToAlign pcm.xfer_align size0 = 0)]
    norm_num
  · intro pcm size0 fuel arest wr fr sr ws hround
    have hsz : ¬size0 = 0 := by
      intro h
      rw [h] at hround
      simp [roundToAlign] at hround
    unfold snd_pcm_read_areas snd_pcm_read_areas_run
    rw [if_neg hsz]
    simp only [snd_pcm_read_areas_loop]
    rw [if_neg (by omega : ¬roundToAlign pcm.xfer_align size0 = 0)]
    norm_num

/-- Witness for C2 at a concrete endpoint: a 4-frame write in PREPARED and a
4-frame read in DRAINING, both with `avail_update` returning 0, return
`-EPIPE`. -/
theorem prepared_write_draining_read_avail_zero_xrun_witness :
    snd_pcm_write_areas pcmW PcmState.prepared 4 3 ⟨[0], [], [], [], []⟩ =
      some (-EPIPE) ∧
    snd_pcm_read_areas pcmW PcmState.draining 4 3 ⟨[0], [], [], [], []⟩ =
      some (-EPIPE) :=
  ⟨prepared_write_draining_read_avail_zero_xrun.1 pcmW 4 2 [] [] [] [] []
      (by decide),
    prepared_write_draining_read_avail_zero_xrun.2 pcmW 4 2 [] [] [] [] []
      (by decide)⟩

/-- Counterexample to C3 as stated: on an endpoint with `xfer_align = 2` in
RUNNING state with `avail_update` returning 2 (≥ `xfer_align`), a write of
size `xfer_align − 1 = 1` transfers 1 frame and returns 1, not 0: the
rounding `size -= size % xfer_align` applies only when
`size > xfer_align`. -/
theorem write_align_minus_one_returns_it_counterexample :
    snd_pcm_write_areas pcmW PcmState.running 1 1 ⟨[2], [], [], [1], []⟩ =
      some 1 ∧ (1 : Int) ≠ 0 :=
  ⟨rfl, by decide⟩

/-- The transfer loops return immediately once `size` has reached 0. -/
theorem snd_pcm_write_areas_loop_size_zero (pcm : Pcm) (fuel : Nat)
    (st : PcmState) (xfer : Nat) (err : Int) (acc : List Nat) (env : XferEnv) :
    snd_pcm_write_areas_loop pcm fuel st 0 xfer err acc env =
      some ⟨xfer, err, acc, false⟩ := by
  cases fuel <;> rfl

/-- Claim C3 (amended): on every Playback endpoint whose ring has
`avail ≥ xfer_align` (with `xfer_align > 1`) and a successful transfer
callback, a write of size `xfer_align − 1` transfers `xfer_align − 1` frames
and returns `xfer_align − 1` — the rounding to a multiple of `xfer_align`
applies only when `size > xfer_align`, so a size of `xfer_align − 1` is not
rounded to 0 — and a write of size exactly `xfer_align` transfers exactly
`xfer_align` frames. -/
theorem write_align_boundary_behavior :
    ∀ (pcm : Pcm) (a r r2 : Int) (fuel : Nat) (wr sr : List Int)
      (ws : List PcmState),
      1 < pcm.xfer_align →
      (pcm.xfer_align : Int) ≤ a →
      0 ≤ r → 0 ≤ r2 →
      snd_pcm_write_areas pcm PcmState.running (pcm.xfer_align - 1) (fuel + 1)
          ⟨[a], wr, ws, [r], sr⟩ = some ((pcm.xfer_align - 1 : Nat) : Int) ∧
      snd_pcm_write_areas pcm PcmState.running pcm.xfer_align (fuel + 1)
          ⟨[a], wr, ws, [r2], sr⟩ = some ((pcm.xfer_align : Nat) : Int) := by
  intro pcm a r r2 fuel wr sr ws halign ha hr hr2
  have haN : pcm.xfer_align ≤ a.toNat := by omega
  have ha0 : ¬a < 0 := by omega
  have havail2 : pcm.xfer_align ≤ roundToAlign pcm.xfer_align a.toNat :=
    roundToAlign_le _ _ haN
  constructor
  · have hsz : ¬pcm.xfer_align - 1 = 0 := by omega
    unfold snd_pcm_write_areas snd_pcm_write_areas_run
    rw [if_neg hsz]
    have hnr : roundToAlign pcm.xfer_align (pcm.xfer_align - 1) =
        pcm.xfer_align - 1 := by
      unfold roundToAlign
      rw [if_neg (by omega)]
    simp only [snd_pcm_write_areas_loop, hnr]
    rw [if_neg hsz, if_neg ha0]
    rw [if_neg (by simp : ¬(PcmState.running = PcmState.prepared ∧ a.toNat = 0))]
    rw [if_neg (by
      simp only [ne_eq, not_and, not_or]
      intro _
      constructor
      · omega
      · omega)]
    rw [if_neg (by omega : ¬r < 0)]
    rw [if_neg (by simp : ¬(PcmState.running = PcmState.prepared ∧
        pcm.start_mode = StartMode.data))]
    have hframes : min (pcm.xfer_align - 1)
        (roundToAlign pcm.xfer_align a.toNat) = pcm.xfer_align - 1 := by
      omega
    rw [hframes]
    rw [Nat.sub_self]
    rw [snd_pcm_write_areas_loop_size_zero]
    simp only [Option.map]
    rw [if_pos (by omega : 0 < 0 + (pcm.xfer_align - 1))]
    norm_num
  · have hsz : ¬pcm.xfer_align = 0 := by omega
    unfold snd_pcm_write_areas snd_pcm_write_areas_run
    rw [if_neg hsz]
    have hnr : roundToAlign pcm.xfer_align pcm.xfer_align = pcm.xfer_align := by
      unfold roundToAlign
      rw [if_neg (by omega)]
    simp only [snd_pcm_write_areas_loop, hnr]
    rw [if_neg hsz, if_neg ha0]
    rw [if_neg (by simp : ¬(PcmState.running = PcmState.prepared ∧ a.toNat = 0))]
    rw [if_neg (by
      simp only [ne_eq, not_and, not_or]
      intro _
      constructor
      · omega
      · omega)]
    rw [if_neg (by omega : ¬r2 < 0)]
    rw [if_neg (by simp : ¬(PcmState.running = PcmState.prepared ∧
        pcm.start_mode = StartMode.data))]
    have hframes : min pcm.xfer_align
        (roundToAlign pcm.xfer_align a.toNat) = pcm.xfer_align := by
      omega
    rw [hframes]
    rw [Nat.sub_self]
    rw [snd_pcm_write_areas_loop_size_zero]
    simp only [Option.map]
    rw [if_pos (by omega : 0 < 0 + pcm.xfer_align)]
    norm_num

/-- Witness for the amended C3 at `xfer_align = 2`, `avail = 2`: a write of
size 1 returns 1 and a write of size 2 returns 2. -/
theorem write_align_boundary_behavior_witness :
    snd_pcm_write_areas pcmW PcmState.running (pcmW.xfer_align - 1) 1
        ⟨[2], [], [], [1], []⟩ = some ((pcmW.xfer_align - 1 : Nat) : Int) ∧
    snd_pcm_write_areas pcmW PcmState.running pcmW.xfer_align 1
        ⟨[2], [], [], [2], []⟩ = some ((pcmW.xfer_align : Nat) : Int) :=
  write_align_boundary_behavior pcmW 2 1 2 0 [] [] [] (by decide) (by decide)
    (by decide) (by decide)

/-- Claim C5: for every endpoint with `setup` true (and a munmap that
succeeds when a mapping exists), `snd_pcm_close` first stops the stream —
issuing `drop` when the mode includes NonBlock or the stream is Capture,
and `drain` otherwise — then runs `snd_pcm_hw_free` (unmapping any mapping
and invoking the backend `hw_free`), then invokes the backend `close`
operation and destroys the object; when `setup` is false only the backend
close and destruction happen. -/
theorem close_sequence (pcm : Pcm) :
    (pcm.setup = true → 0 ≤ pcm.munmapRes →
      snd_pcm_close pcm = some
        ((if pcm.nonblock ∨ pcm.stream = Stream.capture then [CloseEv.drop]
          else [CloseEv.drain]) ++
         (if pcm.mmap_channels then [CloseEv.munmap, CloseEv.hwFree]
          else [CloseEv.hwFree]) ++
         [CloseEv.backendClose, CloseEv.destroy], 0)) ∧
    (pcm.setup = false →
      snd_pcm_close pcm = some ([CloseEv.backendClose, CloseEv.destroy], 0)) := by
  constructor
  · intro hs hm
    have hm' : ¬pcm.munmapRes < 0 := by omega
    by_cases hmm : pcm.mmap_channels = true <;>
      simp [snd_pcm_close, snd_pcm_hw_free, hs, hm', hmm, PcmState.toNat,
        List.append_assoc]
  · intro hs
    simp [snd_pcm_close, hs]

/-- Witness for C5: closing the concrete blocking playback endpoint `pcmW`
(setup installed, no mapping) drains, frees the hardware parameters, closes
the backend and destroys the object. -/
theorem close_sequence_witness :
    snd_pcm_close pcmW = some
      ((if pcmW.nonblock ∨ pcmW.stream = Stream.capture then [CloseEv.drop]
        else [CloseEv.drain]) ++
       (if pcmW.mmap_channels then [CloseEv.munmap, CloseEv.hwFree]
        else [CloseEv.hwFree]) ++
       [CloseEv.backendClose, CloseEv.destroy], 0) :=
  (close_sequence pcmW).1 rfl (by decide)

/-- Counterexample to C6 as stated: `snd_pcm_hw_free` does carry a
setup-assertion precondition — `assert(pcm->setup)` at pcm.c:205 — so
invoking it on an endpoint whose `setup` flag is false trips the assertion
instead of proceeding. -/
theorem hw_free_asserts_setup_counterexample :
    snd_pcm_hw_free { pcmW with setup := false } = none := rfl

/-- Claim C6 (amended): every state-transition operation (prepare, start,
drop, drain, pause, reset, rewind) asserts `setup == true` as a
precondition, and so does `hw_free`; only `hw_params` and close may be
invoked without `setup` being true. -/
theorem transition_ops_assert_setup (pcm : Pcm) (enable : Bool) (frames : Nat)
    (hs : pcm.setup = false) :
    snd_pcm_prepare pcm = none ∧ snd_pcm_start pcm = none ∧
    snd_pcm_drop pcm = none ∧ snd_pcm_drain pcm = none ∧
    snd_pcm_pause pcm enable = none ∧ snd_pcm_reset pcm = none ∧
    snd_pcm_rewind pcm frames = none ∧ snd_pcm_hw_free pcm = none ∧
    (snd_pcm_hw_params pcm).isSome = true ∧ (snd_pcm_close pcm).isSome = true := by
  refine ⟨?_, ?_, ?_, ?_, ?_, ?_, ?_, ?_, ?_, ?_⟩
  · simp [snd_pcm_prepare, hs]
  · simp [snd_pcm_start, hs]
  · simp [snd_pcm_drop, hs]
  · simp [snd_pcm_drain, hs]
  · simp [snd_pcm_pause, hs]
  · simp [snd_pcm_reset, hs]
  · simp [snd_pcm_rewind, hs]
  · simp [snd_pcm_hw_free, hs]
  · by_cases h : 0 ≤ pcm.hwParamsRes
    · simp [snd_pcm_hw_params, _snd_pcm_hw_params, h, snd_pcm_prepare]
    · simp [snd_pcm_hw_params, _snd_pcm_hw_params, h]
  · simp [snd_pcm_close, hs]

/-- Witness for the amended C6 on a concrete endpoint without installed
hardware parameters. -/
theorem transition_ops_assert_setup_witness :
    snd_pcm_prepare { pcmW with setup := false } = none ∧
    snd_pcm_start { pcmW with setup := false } = none ∧
    snd_pcm_drop { pcmW with setup := false } = none ∧
    snd_pcm_drain { pcmW with setup := false } = none ∧
    snd_pcm_pause { pcmW with setup := false } true = none ∧
    snd_pcm_reset { pcmW with setup := false } = none ∧
    snd_pcm_rewind { pcmW with setup := false } 1 = none ∧
    snd_pcm_hw_free { pcmW with setup := false } = none ∧
    (snd_pcm_hw_params { pcmW with setup := false }).isSome = true ∧
    (snd_pcm_close { pcmW with setup := false }).isSome = true :=
  transition_ops_assert_setup { pcmW with setup := false } true 1 rfl

/-- `Int.tdiv` on natural-number embeddings is natural-number division. -/
theorem ofNat_tdiv (a b : Nat) : Int.tdiv a b = ((a / b : Nat) : Int) := rfl

/-- Counterexample to C8 as stated: on an endpoint with `frame_bits = 4`
(one channel of a 4-bit sub-byte format) and `setup` true, the round trip
`bytes_to_frames(frames_to_bytes(1))` yields 0, not 1: `1 * 4 / 8`
truncates to 0 bytes. -/
theorem bytes_frames_roundtrip_counterexample :
    (snd_pcm_frames_to_bytes { pcmW with frame_bits := 4 } 1).bind
      (snd_pcm_bytes_to_frames { pcmW with frame_bits := 4 }) = some 0 ∧
    (0 : Int) ≠ 1 := ⟨rfl, by decide⟩

/-- Claim C8 (amended): for every endpoint with `setup` true whose
`frame_bits` is a positive multiple of 8 — every byte-aligned frame layout —
and every non-negative frame count n,
`snd_pcm_bytes_to_frames(snd_pcm_frames_to_bytes(n)) == n` with both
truncating divisions exact; when `frame_bits` is not a multiple of 8 the
truncation can lose the fractional byte and the round trip falls short. -/
theorem bytes_frames_roundtrip (pcm : Pcm) (n : Int)
    (hs : pcm.setup = true) (hd : 8 ∣ pcm.frame_bits) (hp : 0 < pcm.frame_bits)
    (hn : 0 ≤ n) :
    (snd_pcm_frames_to_bytes pcm n).bind (snd_pcm_bytes_to_frames pcm) =
      some n := by
  obtain ⟨k, hk⟩ := hd
  have hk0 : 0 < k := by omega
  unfold snd_pcm_frames_to_bytes snd_pcm_bytes_to_frames
  rw [hs]
  simp only [if_true, Option.bind]
  have hnm : n = (n.toNat : Int) := (Int.toNat_of_nonneg hn).symm
  rw [hnm, hk]
  rw [show ((n.toNat : Int) * ((8 * k : Nat) : Int)) =
      ((n.toNat * (8 * k) : Nat) : Int) by push_cast; ring]
  rw [show (Int.tdiv ((n.toNat * (8 * k) : Nat) : Int) (8 : Int)) =
      ((n.toNat * (8 * k) / 8 : Nat) : Int) from rfl]
  rw [show (((n.toNat * (8 * k) / 8 : Nat) : Int) * (8 : Int)) =
      ((n.toNat * (8 * k) / 8 * 8 : Nat) : Int) by push_cast; ring]
  rw [show (Int.tdiv ((n.toNat * (8 * k) / 8 * 8 : Nat) : Int)
        (((8 * k : Nat)) : Int)) =
      ((n.toNat * (8 * k) / 8 * 8 / (8 * k) : Nat) : Int) from rfl]
  have h1 : n.toNat * (8 * k) / 8 = n.toNat * k := by
    rw [show n.toNat * (8 * k) = n.toNat * k * 8 by ring]
    exact Nat.mul_div_cancel _ (by omega)
  have h2 : n.toNat * k * 8 / (8 * k) = n.toNat := by
    rw [show n.toNat * k * 8 = n.toNat * (8 * k) by ring]
    exact Nat.mul_div_cancel _ (by omega)
  rw [h1, h2]

/-- Witness for the amended C8: a 32-bit frame endpoint round-trips the
frame count 5. -/
theorem bytes_frames_roundtrip_witness :
    (snd_pcm_frames_to_bytes pcmW 5).bind (snd_pcm_bytes_to_frames pcmW) =
      some 5 :=
  bytes_frames_roundtrip pcmW 5 rfl (by decide) (by decide) (by decide)

/-- Claim C9: `snd_pcm_close` always returns 0, for every endpoint: the
error results of the stop step (`drain`/`drop`), of `hw_free` and of the
backend close are accumulated into a local that the final `return 0`
discards, so a caller never observes a failure from close. -/
theorem close_always_returns_zero (pcm : Pcm) :
    (snd_pcm_close pcm).map Prod.snd = some 0 := by
  by_cases hs : pcm.setup = true
  · by_cases hmm : pcm.mmap_channels = true <;>
      by_cases hm : pcm.munmapRes < 0 <;>
      simp [snd_pcm_close, snd_pcm_hw_free, hs, hmm, hm, PcmState.toNat]
  · simp [snd_pcm_close, hs]

/-! ## Sample formats, names and geometry

The format enum of this library version (`snd_pcm_format_t`, values 0..25 =
`SND_PCM_FORMAT_LAST`, with `SND_PCM_FORMAT_UNKNOWN = -1` modelled as
`none`). -/

/-- The sample formats, in enum order (`snd_pcm_format_names` designated
initializers, pcm.c:550-577). -/
inductive Format where
  | s8
  | u8
  | s16_le
  | s16_be
  | u16_le
  | u16_be
  | s24_le
  | s24_be
  | u24_le
  | u24_be
  | s32_le
  | s32_be
  | u32_le
  | u32_be
  | float_le
  | float_be
  | float64_le
  | float64_be
  | iec958_subframe_le
  | iec958_subframe_be
  | mu_law
  | a_law
  | ima_adpcm
  | mpeg
  | gsm
  | special
deriving DecidableEq, Repr, Fintype

/-- `snd_pcm_format_name`: the `snd_pcm_format_names` table entry — the
stringified enum suffix. -/
def snd_pcm_format_name : Format → String
  | .s8 => "S8"
  | .u8 => "U8"
  | .s16_le => "S16_LE"
  | .s16_be => "S16_BE"
  | .u16_le => "U16_LE"
  | .u16_be => "U16_BE"
  | .s24_le => "S24_LE"
  | .s24_be => "S24_BE"
  | .u24_le => "U24_LE"
  | .u24_be => "U24_BE"
  | .s32_le => "S32_LE"
  | .s32_be => "S32_BE"
  | .u32_le => "U32_LE"
  | .u32_be => "U32_BE"
  | .float_le => "FLOAT_LE"
  | .float_be => "FLOAT_BE"
  | .float64_le => "FLOAT64_LE"
  | .float64_be => "FLOAT64_BE"
  | .iec958_subframe_le => "IEC958_SUBFRAME_LE"
  | .iec958_subframe_be => "IEC958_SUBFRAME_BE"
  | .mu_law => "MU_LAW"
  | .a_law => "A_LAW"
  | .ima_adpcm => "IMA_ADPCM"
  | .mpeg => "MPEG"
  | .gsm => "GSM"
  | .special => "SPECIAL"

/-- The formats in enum order 0..`SND_PCM_FORMAT_LAST`, the iteration order
of the lookup loop in `snd_pcm_format_value`. -/
def formatEnumOrder : List Format :=
  [.s8, .u8, .s16_le, .s16_be, .u16_le, .u16_be, .s24_le, .s24_be,
   .u24_le, .u24_be, .s32_le, .s32_be, .u32_le, .u32_be, .float_le,
   .float_be, .float64_le, .float64_be, .iec958_subframe_le,
   .iec958_subframe_be, .mu_law, .a_law, .ima_adpcm, .mpeg, .gsm, .special]

/-- ASCII lower-casing, the character map of `strcasecmp`. -/
def asciiLower (c : Char) : Char :=
  if 'A' ≤ c ∧ c ≤ 'Z' then Char.ofNat (c.toNat + 32) else c

/-- `strcasecmp(s, t) == 0`: equality after ASCII lower-casing. -/
def strCaseEq (s t : String) : Bool :=
  s.data.map asciiLower == t.data.map asciiLower

/-- `snd_pcm_format_value`: scan formats 0..`SND_PCM_FORMAT_LAST` in order
and return the first whose (non-NULL) name matches case-insensitively;
`SND_PCM_FORMAT_UNKNOWN` — modelled as `none` — when no name matches. -/
def snd_pcm_format_value (name : String) : Option Format :=
  formatEnumOrder.find? (fun f => strCaseEq name (snd_pcm_format_name f))

/-- Claim C10: `snd_pcm_format_value` is a case-insensitive left inverse of
`snd_pcm_format_name`: every named format is recovered from its own name,
and a string matching no format name case-insensitively yields
`FORMAT_UNKNOWN` (modelled as `none`). -/
theorem format_value_left_inverse_of_name :
    (∀ f : Format, snd_pcm_format_value (snd_pcm_format_name f) = some f) ∧
    (∀ s : String,
      (∀ f : Format, strCaseEq s (snd_pcm_format_name f) = false) →
      snd_pcm_format_value s = none) := by
  constructor
  · intro f
    cases f <;> rfl
  · intro s h
    unfold snd_pcm_format_value
    rw [List.find?_eq_none]
    intro f _
    simp [h f]

/-- Witness for C10: the format S16_LE is recovered from its own name, and
the non-name "WAVPACK" maps to unknown. -/
theorem format_value_left_inverse_of_name_witness :
    snd_pcm_format_value (snd_pcm_format_name Format.s16_le) =
        some Format.s16_le ∧
      snd_pcm_format_value "WAVPACK" = none :=
  ⟨format_value_left_inverse_of_name.1 Format.s16_le,
   format_value_left_inverse_of_name.2 "WAVPACK" (by decide)⟩

/-! ## Frame geometry (modelled from the spec — `pcm_misc.c` and the header
inlines are outside `src/`) -/

/-- Modelled from the spec (§4.1): physical width in bits of each sample
format (4/8/16/32/64).  The 24-bit formats occupy 32-bit containers.  MPEG,
GSM and SPECIAL carry no fixed physical width (the real table reports an
error); they are given width 0 here and the silence/copy switch of pcm.c
asserts unreachable on them — no theorem below touches them. -/
def snd_pcm_format_physical_width : Format → Nat
  | .s8 | .u8 | .mu_law | .a_law => 8
  | .s16_le | .s16_be | .u16_le | .u16_be => 16
  | .s24_le | .s24_be | .u24_le | .u24_be => 32
  | .s32_le | .s32_be | .u32_le | .u32_be => 32
  | .float_le | .float_be => 32
  | .float64_le | .float64_be => 64
  | .iec958_subframe_le | .iec958_subframe_be => 32
  | .ima_adpcm => 4
  | .mpeg | .gsm | .special => 0

/-- Modelled from the spec (§4.1): the 64-bit silence pattern of each
format, "the silence pattern for a mute sample replicated to 64 bits".
Byte sequences are read in little-endian order throughout this model, so a
value here is the device byte pattern serialized little-endian. -/
def snd_pcm_format_silence_64 : Format → Nat
  | .s8 | .s16_le | .s16_be | .s24_le | .s24_be | .s32_le | .s32_be => 0
  | .float_le | .float_be | .float64_le | .float64_be => 0
  | .iec958_subframe_le | .iec958_subframe_be => 0
  | .ima_adpcm => 0
  | .mu_law => 0x7f7f7f7f7f7f7f7f
  | .a_law => 0x5555555555555555
  | .u8 => 0x8080808080808080
  | .u16_le => 0x8000800080008000
  | .u16_be => 0x0080008000800080
  | .u24_le => 0x0080000000800000
  | .u24_be => 0x0000800000008000
  | .u32_le => 0x8000000080000000
  | .u32_be => 0x0000008000000080
  | .mpeg | .gsm | .special => 0

/-! ## The channel-area engine -/

/-- Byte memory: an unbounded map from byte index to stored value.  Writes
store values below 256; reads of cells never written mask with `% 256` where
a byte is consumed. -/
abbrev Mem := Nat → Nat

/-- A channel area `(addr, first, step)`: `addr` is the base byte index of
the backing buffer (`none` models a NULL pointer), `first` the bit offset of
sample 0 and `step` the bit stride between successive samples. -/
structure ChannelArea where
  addr : Option Nat
  first : Nat
  step : Nat
deriving DecidableEq, Repr

/-- Byte `i` (little-endian) of a value. -/
def byteOf (v i : Nat) : Nat := v / 256 ^ i % 256

/-- A single `nbytes`-wide store at byte index `p`, serialized
little-endian: one `*(u_intN_t*)dst = v` of the source. -/
def storeLE (mem : Mem) (p nbytes v : Nat) : Mem :=
  fun q => if p ≤ q ∧ q < p + nbytes then byteOf v (q - p) else mem q

/-- An `nbytes`-wide little-endian load at byte index `p`:
one `*(u_intN_t*)src` of the source. -/
def loadLE : Mem → Nat → Nat → Nat
  | _, _, 0 => 0
  | mem, p, n + 1 => mem p % 256 + 256 * loadLE mem (p + 1) n

/-- The fast-path loop `while (dwords-- > 0) *((u_int64_t*)dst)++ = silence`
of `snd_pcm_area_silence`. -/
def write64s : Mem → Nat → Nat → Nat → Mem
  | mem, _, _, 0 => mem
  | mem, p, sil, d + 1 => write64s (storeLE mem p 8 sil) (p + 8) sil d

/-- The per-sample silence loop for widths 8/16/32/64
(`*(u_intN_t*)dst = sil; dst += dst_step;`). -/
def silenceLoopW : Mem → Nat → Nat → Nat → Nat → Nat → Mem
  | mem, _, _, _, _, 0 => mem
  | mem, dst, dstStep, bytes, sil, n + 1 =>
    silenceLoopW (storeLE mem dst bytes sil) (dst + dstStep) dstStep bytes sil n

/-- The width-4 silence loop of `snd_pcm_area_silence` (pcm.c:1137-1157):
`dstbit == 0` writes the 0xf0 half of the byte, otherwise the 0x0f half;
the nibble cursor advances by `dst_step` bytes plus `dstbit_step` bits with
a carry exactly when the bit cursor reaches 8. -/
def silenceLoop4 : Mem → Nat → Nat → Nat → Nat → Nat → Nat → Nat → Mem
  | mem, _, _, _, _, _, _, 0 => mem
  | mem, dst, dstbit, dstStep, dstbitStep, s0, s1, n + 1 =>
    let b' := if dstbit ≠ 0 then (mem dst &&& 0xf0) ||| s1
              else (mem dst &&& 0x0f) ||| s0
    let mem' : Mem := fun q => if q = dst then b' else mem q
    let dst' := dst + dstStep
    let dstbit' := dstbit + dstbitStep
    if dstbit' = 8 then silenceLoop4 mem' (dst' + 1) 0 dstStep dstbitStep s0 s1 n
    else silenceLoop4 mem' dst' dstbit' dstStep dstbitStep s0 s1 n

/-- Modelled from the spec (§4.2): `snd_pcm_channel_area_addr` is a header
inline outside `src/`; the spec gives the byte address of sample `ofs` of an
area as `area.addr + area.first/8 + ofs * area.step/8`. -/
def snd_pcm_channel_area_addr (base : Nat) (a : ChannelArea) (ofs : Nat) : Nat :=
  base + a.first / 8 + ofs * a.step / 8

/-- `snd_pcm_area_silence` (pcm.c:1114-1194): NULL target is a no-op; when
`step == width` a 64-bit fast path writes `samples*width/64` silence words
and leaves the remainder to the per-sample switch on the width.  The
`if (samples == 0) return 0` of the source is subsumed: every loop below is
the identity at 0 samples.  The `default: assert(0)` arm is modelled as the
identity (no supported format reaches it). -/
def snd_pcm_area_silence (dst : ChannelArea) (offset samples0 : Nat)
    (fmt : Format) (mem : Mem) : Mem :=
  match dst.addr with
  | none => mem
  | some base =>
    let width := snd_pcm_format_physical_width fmt
    let silence := snd_pcm_format_silence_64 fmt
    let dst0 := snd_pcm_channel_area_addr base dst offset
    let dwords := if dst.step = width then samples0 * width / 64 else 0
    let mem1 := if dst.step = width then write64s mem dst0 silence dwords else mem
    let dstB := if dst.step = width then dst0 + 8 * dwords else dst0
    let samples := if dst.step = width then samples0 - dwords * 64 / width
                   else samples0
    let dstStep := dst.step / 8
    match width with
    | 4 =>
      silenceLoop4 mem1 dstB (dst.first % 8) dstStep (dst.step % 8)
        (silence &&& 0xf0) (silence &&& 0x0f) samples
    | 8 => silenceLoopW mem1 dstB dstStep 1 silence samples
    | 16 => silenceLoopW mem1 dstB dstStep 2 silence samples
    | 32 => silenceLoopW mem1 dstB dstStep 4 silence samples
    | 64 => silenceLoopW mem1 dstB dstStep 8 silence samples
    | _ => mem1

/-- The inner run scan of `snd_pcm_areas_silence` (pcm.c:1216-1225): the
number of areas following the run head that extend the run (same `addr`,
same `step`, `first` exactly one width further each). -/
def silenceRunLen (width : Nat) (addr : Option Nat) (step : Nat) :
    Nat → List ChannelArea → Nat
  | _, [] => 0
  | prevFirst, b :: bs =>
    if b.addr = addr ∧ b.step = step ∧ b.first = prevFirst + width then
      1 + silenceRunLen width addr step b.first bs
    else 0

/-- The `while (channels > 0)` loop of `snd_pcm_areas_silence`
(pcm.c:1209-1241).  `fuel` is the `channels` counter of the source: every
iteration consumes at least one channel, so starting it at the list length
makes the recursion faithful and structural. -/
def snd_pcm_areas_silence_go (fmt : Format) (offset frames : Nat) :
    Nat → List ChannelArea → Mem → Mem
  | _, [], mem => mem
  | 0, _, mem => mem
  | fuel + 1, a :: rest, mem =>
    let width := snd_pcm_format_physical_width fmt
    let chns := 1 + silenceRunLen width a.addr a.step a.first rest
    if 1 < chns ∧ chns * width = a.step then
      let d : ChannelArea := { addr := a.addr, first := a.first, step := width }
      let mem' := snd_pcm_area_silence d (offset * chns) (frames * chns) fmt mem
      snd_pcm_areas_silence_go fmt offset frames fuel (rest.drop (chns - 1)) mem'
    else
      let mem' := snd_pcm_area_silence a offset frames fmt mem
      snd_pcm_areas_silence_go fmt offset frames fuel rest mem'

/-- `snd_pcm_areas_silence` over a list of `channels` areas. -/
def snd_pcm_areas_silence (areas : List ChannelArea) (offset frames : Nat)
    (fmt : Format) (mem : Mem) : Mem :=
  snd_pcm_areas_silence_go fmt offset frames areas.length areas mem

/-- `memcpy(dst, src, n)`: the source fast path copies whole byte ranges;
reads are from the pre-call memory (the C contract requires the ranges not
to overlap). -/
def memcpyBytes (mem : Mem) (dst src n : Nat) : Mem :=
  fun q => if dst ≤ q ∧ q < dst + n then mem (src + (q - dst)) % 256 else mem q

/-- The per-sample copy loop for widths 8/16/32/64
(`*(u_intN_t*)dst = *(u_intN_t*)src`). -/
def copyLoopW : Mem → Nat → Nat → Nat → Nat → Nat → Nat → Mem
  | mem, _, _, _, _, _, 0 => mem
  | mem, src, dst, srcStep, dstStep, bytes, n + 1 =>
    copyLoopW (storeLE mem dst bytes (loadLE mem src bytes)) (src + srcStep)
      (dst + dstStep) srcStep dstStep bytes n

/-- The width-4 copy loop of `snd_pcm_area_copy` (pcm.c:1283-1312), with
both nibble cursors advanced as in the silence loop. -/
def copyLoop4 : Mem → Nat → Nat → Nat → Nat → Nat → Nat → Nat → Nat → Nat → Mem
  | mem, _, _, _, _, _, _, _, _, 0 => mem
  | mem, src, srcbit, dst, dstbit, srcStep, srcbitStep, dstStep, dstbitStep,
      n + 1 =>
    let srcval := if srcbit ≠ 0 then mem src &&& 0x0f else mem src &&& 0xf0
    let b' := (if dstbit ≠ 0 then mem dst &&& 0xf0 else mem dst &&& 0x0f) ||| srcval
    let mem' : Mem := fun q => if q = dst then b' else mem q
    let src' := src + srcStep
    let srcbit' := srcbit + srcbitStep
    let dst' := dst + dstStep
    let dstbit' := dstbit + dstbitStep
    let src2 := if srcbit' = 8 then src' + 1 else src'
    let srcbit2 := if srcbit' = 8 then 0 else srcbit'
    let dst2 := if dstbit' = 8 then dst' + 1 else dst'
    let dstbit2 := if dstbit' = 8 then 0 else dstbit'
    copyLoop4 mem' src2 srcbit2 dst2 dstbit2 srcStep srcbitStep dstStep
      dstbitStep n

/-- `snd_pcm_area_copy` (pcm.c:1256-1350): a NULL source degenerates to
silence, a NULL target to a no-op; when both steps equal the width a
`memcpy` fast path moves `samples*width/8` bytes (and any residual samples
restart the per-sample switch at the area start, as the source pointers are
not advanced past the memcpy). -/
def snd_pcm_area_copy (dst : ChannelArea) (dstOfs : Nat) (src : ChannelArea)
    (srcOfs samples0 : Nat) (fmt : Format) (mem : Mem) : Mem :=
  match src.addr with
  | none => snd_pcm_area_silence dst dstOfs samples0 fmt mem
  | some sbase =>
    match dst.addr with
    | none => mem
    | some dbase =>
      let width := snd_pcm_format_physical_width fmt
      let srcP := snd_pcm_channel_area_addr sbase src srcOfs
      let dstP := snd_pcm_channel_area_addr dbase dst dstOfs
      let fast := src.step = width ∧ dst.step = width
      let bytes := if fast then samples0 * width / 8 else 0
      let mem1 := if fast then memcpyBytes mem dstP srcP bytes else mem
      let samples := if fast then samples0 - bytes * 8 / width
                     else samples0
      match width with
      | 4 =>
        copyLoop4 mem1 srcP (src.first % 8) dstP (dst.first % 8)
          (src.step / 8) (src.step % 8) (dst.step / 8) (dst.step % 8) samples
      | 8 => copyLoopW mem1 srcP dstP (src.step / 8) (dst.step / 8) 1 samples
      | 16 => copyLoopW mem1 srcP dstP (src.step / 8) (dst.step / 8) 2 samples
      | 32 => copyLoopW mem1 srcP dstP (src.step / 8) (dst.step / 8) 4 samples
      | 64 => copyLoopW mem1 srcP dstP (src.step / 8) (dst.step / 8) 8 samples
      | _ => mem1

/-- The inner run scan of `snd_pcm_areas_copy` (pcm.c:1376-1388), counting
continuation pairs after the run head: the break condition requires matching
source step, both addresses, and both `first` chains; the loop guard
additionally requires the next destination step to equal the source step. -/
def copyRunCont (w step : Nat) (saddr daddr : Option Nat) :
    Nat → Nat → List ChannelArea → List ChannelArea → Nat
  | sprev, dprev, s :: ss, d :: ds =>
    if s.step = step ∧ s.addr = saddr ∧ d.addr = daddr ∧
        s.first = sprev + w ∧ d.first = dprev + w then
      if d.step = step then
        1 + copyRunCont w step saddr daddr s.first d.first ss ds
      else 0
    else 0
  | _, _, _, _ => 0

/-- The `while (channels > 0)` loop of `snd_pcm_areas_copy`
(pcm.c:1368-1410), with `fuel` the `channels` counter as in the silence
variant. -/
def snd_pcm_areas_copy_go (fmt : Format) (dstOfs srcOfs frames : Nat) :
    Nat → List ChannelArea → List ChannelArea → Mem → Mem
  | _, [], _, mem => mem
  | _, _, [], mem => mem
  | 0, _, _, mem => mem
  | fuel + 1, s :: ss, d :: ds, mem =>
    let width := snd_pcm_format_physical_width fmt
    let step := s.step
    let chns := if d.step = step then
        1 + copyRunCont width step s.addr d.addr s.first d.first ss ds
      else 0
    if 1 < chns ∧ chns * width = step then
      let scol : ChannelArea := { addr := s.addr, first := s.first, step := width }
      let dcol : ChannelArea := { addr := d.addr, first := d.first, step := width }
      let mem' := snd_pcm_area_copy dcol (dstOfs * chns) scol (srcOfs * chns)
        (frames * chns) fmt mem
      snd_pcm_areas_copy_go fmt dstOfs srcOfs frames fuel (ss.drop (chns - 1))
        (ds.drop (chns - 1)) mem'
    else
      let mem' := snd_pcm_area_copy d dstOfs s srcOfs frames fmt mem
      snd_pcm_areas_copy_go fmt dstOfs srcOfs frames fuel ss ds mem'

/-- `snd_pcm_areas_copy` over `channels` source/destination area pairs. -/
def snd_pcm_areas_copy (dsts : List ChannelArea) (dstOfs : Nat)
    (srcs : List ChannelArea) (srcOfs frames : Nat) (fmt : Format)
    (mem : Mem) : Mem :=
  snd_pcm_areas_copy_go fmt dstOfs srcOfs frames dsts.length srcs dsts mem

/-- A run of `c` adjacent channels over one buffer: equal `addr` and `step`,
`first` values one width apart. -/
def runAreas (base first0 step w : Nat) : Nat → List ChannelArea
  | 0 => []
  | c + 1 => ⟨some base, first0, step⟩ :: runAreas base (first0 + w) step w c

/-- The per-channel reference path: one `snd_pcm_area_silence` call per
channel, in natural order. -/
def perChannelSilence (areas : List ChannelArea) (offset frames : Nat)
    (fmt : Format) (mem : Mem) : Mem :=
  areas.foldl (fun m a => snd_pcm_area_silence a offset frames fmt m) mem

/-- The per-channel reference path: one `snd_pcm_area_copy` call per channel
pair, in natural order. -/
def perChannelCopy (dsts : List ChannelArea) (dstOfs : Nat)
    (srcs : List ChannelArea) (srcOfs frames : Nat) (fmt : Format)
    (mem : Mem) : Mem :=
  (List.zip dsts srcs).foldl
    (fun m p => snd_pcm_area_copy p.1 dstOfs p.2 srcOfs frames fmt m) mem

/-! ## Pointwise characterization of the silence loops -/

/-- Effect of the 64-bit fast-path loop: the `8*d` bytes from `p` hold the
silence bytes with period 8, everything else is untouched. -/
theorem write64s_char (sil : Nat) :
    ∀ (d : Nat) (mem : Mem) (p q : Nat),
      write64s mem p sil d q =
        if p ≤ q ∧ q < p + 8 * d then byteOf sil ((q - p) % 8) else mem q := by
  intro d
  induction d with
  | zero =>
    intro mem p q
    simp only [write64s]
    rw [if_neg (by omega)]
  | succ n ih =>
    intro mem p q
    simp only [write64s]
    rw [ih]
    by_cases h1 : p + 8 ≤ q ∧ q < p + 8 + 8 * n
    · rw [if_pos h1, if_pos (by omega)]
      congr 1
      omega
    · rw [if_neg h1]
      unfold storeLE
      by_cases h2 : p ≤ q ∧ q < p + 8
      · rw [if_pos h2, if_pos (by omega)]
        congr 1
        omega
      · rw [if_neg h2, if_neg (by omega)]

/-- Effect of the per-sample silence loop at stride `dstStep` and store
width `bytes ≤ dstStep`: sample `k` occupies bytes
`[dst + k*dstStep, dst + k*dstStep + bytes)`; strides do not overlap. -/
theorem silenceLoopW_char (dstStep bytes sil : Nat) (hb : 0 < bytes)
    (hbs : bytes ≤ dstStep) :
    ∀ (n : Nat) (mem : Mem) (dst q : Nat),
      silenceLoopW mem dst dstStep bytes sil n q =
        if dst ≤ q ∧ (q - dst) / dstStep < n ∧ (q - dst) % dstStep < bytes then
          byteOf sil ((q - dst) % dstStep)
        else mem q := by
  have hstep : 0 < dstStep := lt_of_lt_of_le hb hbs
  intro n
  induction n with
  | zero =>
    intro mem dst q
    simp only [silenceLoopW]
    rw [if_neg (fun h => absurd h.2.1 (Nat.not_lt_zero _))]
  | succ n ih =>
    intro mem dst q
    simp only [silenceLoopW]
    rw [ih]
    by_cases hq : dst + dstStep ≤ q
    · have hmod : (q - (dst + dstStep)) % dstStep = (q - dst) % dstStep := by
        have he : q - dst = dstStep + (q - (dst + dstStep)) := by omega
        rw [he, Nat.add_mod_left]
      have hdiv : (q - (dst + dstStep)) / dstStep + 1 = (q - dst) / dstStep := by
        have he : q - dst = (q - (dst + dstStep)) + dstStep := by omega
        rw [he, Nat.add_div_right _ hstep]
      by_cases hc : (q - (dst + dstStep)) / dstStep < n ∧
          (q - (dst + dstStep)) % dstStep < bytes
      · rw [if_pos ⟨hq, hc.1, hc.2⟩]
        rw [if_pos ⟨by omega, by omega, by omega⟩]
        congr 1
      · rw [if_neg (fun hfull => hc ⟨hfull.2.1, hfull.2.2⟩)]
        unfold storeLE
        rw [if_neg (by omega)]
        have hnc : ¬(dst ≤ q ∧ (q - dst) / dstStep < n + 1 ∧
            (q - dst) % dstStep < bytes) := by
          intro hfull
          exact hc ⟨by omega, by omega⟩
        rw [if_neg hnc]
    · rw [if_neg (fun hfull => hq hfull.1)]
      unfold storeLE
      have hm : (q - dst) % dstStep = q - dst := Nat.mod_eq_of_lt (by omega)
      have hd : (q - dst) / dstStep = 0 := Nat.div_eq_of_lt (by omega)
      by_cases h2 : dst ≤ q ∧ q < dst + bytes
      · rw [if_pos h2, if_pos ⟨h2.1, by omega, by omega⟩]
        rw [hm]
      · have hnc : ¬(dst ≤ q ∧ (q - dst) / dstStep < n + 1 ∧
            (q - dst) % dstStep < bytes) := by
          intro hfull
          exact h2 ⟨hfull.1, by omega⟩
        rw [if_neg h2, if_neg hnc]

/-- The silence pattern is periodic in the sample width: for a format of
physical width `8*m` bytes `i` and `i % m` of the 64-bit silence value
agree. -/
theorem silence64_periodic (fmt : Format) (m : Nat)
    (hw : snd_pcm_format_physical_width fmt = 8 * m) (hm0 : 0 < m) :
    ∀ i, i < 8 → byteOf (snd_pcm_format_silence_64 fmt) i =
      byteOf (snd_pcm_format_silence_64 fmt) (i % m) := by
  cases fmt <;> simp only [snd_pcm_format_physical_width] at hw <;>
    first
    | omega
    | (have h1 : m = 1 := by omega
       subst h1
       decide)
    | (have h2 : m = 2 := by omega
       subst h2
       decide)
    | (have h4 : m = 4 := by omega
       subst h4
       decide)
    | (have h8 : m = 8 := by omega
       subst h8
       decide)

/-- Effect of `snd_pcm_area_silence` on a packed area (`step == width`)
for a byte-multiple width: the `samples * width/8` bytes from the start
address hold the silence pattern with period `width/8`, via the 64-bit fast
path plus the per-sample tail. -/
theorem area_silence_packed_char (fmt : Format) (w : Nat)
    (hw : snd_pcm_format_physical_width fmt = w)
    (hws : w = 8 ∨ w = 16 ∨ w = 32 ∨ w = 64)
    (base first ofs samples : Nat) (mem : Mem) (q : Nat) :
    snd_pcm_area_silence ⟨some base, first, w⟩ ofs samples fmt mem q =
      if base + first / 8 + ofs * (w / 8) ≤ q ∧
          q < base + first / 8 + ofs * (w / 8) + samples * (w / 8) then
        byteOf (snd_pcm_format_silence_64 fmt)
          ((q - (base + first / 8 + ofs * (w / 8))) % (w / 8))
      else mem q := by
  rcases hws with rfl | rfl | rfl | rfl
  · simp only [snd_pcm_area_silence, snd_pcm_channel_area_addr, hw]
    norm_num
    rw [silenceLoopW_char 1 1 _ (by norm_num) (by norm_num), write64s_char]
    have hper := silence64_periodic fmt 1 (by rw [hw]) (by norm_num)
    split
    · rw [if_pos (by omega)]
      congr 1
      omega
    · split
      · rw [if_pos (by omega)]
        rw [hper _ (by omega)]
        congr 1
        omega
      · rw [if_neg (by omega)]
  · simp only [snd_pcm_area_silence, snd_pcm_channel_area_addr, hw]
    norm_num
    rw [silenceLoopW_char 2 2 _ (by norm_num) (by norm_num), write64s_char]
    have hper := silence64_periodic fmt 2 (by rw [hw]) (by norm_num)
    split
    · rw [if_pos (by omega)]
      congr 1
      omega
    · split
      · rw [if_pos (by omega)]
        rw [hper _ (by omega)]
        congr 1
        omega
      · rw [if_neg (by omega)]
  · simp only [snd_pcm_area_silence, snd_pcm_channel_area_addr, hw]
    norm_num
    rw [silenceLoopW_char 4 4 _ (by norm_num) (by norm_num), write64s_char]
    have hper := silence64_periodic fmt 4 (by rw [hw]) (by norm_num)
    split
    · rw [if_pos (by omega)]
      congr 1
      omega
    · split
      · rw [if_pos (by omega)]
        rw [hper _ (by omega)]
        congr 1
        omega
      · rw [if_neg (by omega)]
  · simp only [snd_pcm_area_silence, snd_pcm_channel_area_addr, hw]
    norm_num
    rw [silenceLoopW_char 8 8 _ (by norm_num) (by norm_num), write64s_char]
    have hper := silence64_periodic fmt 8 (by rw [hw]) (by norm_num)
    split
    · rw [if_pos (by omega)]
      congr 1
      omega
    · split
      · rw [if_pos (by omega)]
        rw [hper _ (by omega)]
        congr 1
        omega
      · rw [if_neg (by omega)]

/-- Effect of `snd_pcm_area_silence` on a strided area (`step = c * width`,
`c ≥ 2`) for a byte-multiple width: sample `k` occupies the `width/8` bytes
at `start + k * step/8`; the 64-bit fast path is not taken. -/
theorem area_silence_strided_char (fmt : Format) (w c : Nat)
    (hw : snd_pcm_format_physical_width fmt = w)
    (hws : w = 8 ∨ w = 16 ∨ w = 32 ∨ w = 64) (hc : 2 ≤ c)
    (base first ofs samples : Nat) (mem : Mem) (q : Nat) :
    snd_pcm_area_silence ⟨some base, first, c * w⟩ ofs samples fmt mem q =
      if base + first / 8 + ofs * (c * w) / 8 ≤ q ∧
          (q - (base + first / 8 + ofs * (c * w) / 8)) / (c * w / 8) < samples ∧
          (q - (base + first / 8 + ofs * (c * w) / 8)) % (c * w / 8) < w / 8 then
        byteOf (snd_pcm_format_silence_64 fmt)
          ((q - (base + first / 8 + ofs * (c * w) / 8)) % (c * w / 8))
      else mem q := by
  rcases hws with rfl | rfl | rfl | rfl
  · have hne : ¬(c * 8 = 8) := by omega
    simp only [snd_pcm_area_silence, snd_pcm_channel_area_addr, hw, if_neg hne]
    norm_num
    rw [silenceLoopW_char c 1 _ (by norm_num) (by omega)]
    simp only [Nat.lt_one_iff]
  · have hne : ¬(c * 16 = 16) := by omega
    simp only [snd_pcm_area_silence, snd_pcm_channel_area_addr, hw, if_neg hne]
    norm_num
    rw [silenceLoopW_char (c * 16 / 8) 2 _ (by norm_num) (by omega)]
  · have hne : ¬(c * 32 = 32) := by omega
    simp only [snd_pcm_area_silence, snd_pcm_channel_area_addr, hw, if_neg hne]
    norm_num
    rw [silenceLoopW_char (c * 32 / 8) 4 _ (by norm_num) (by omega)]
  · have hne : ¬(c * 64 = 64) := by omega
    simp only [snd_pcm_area_silence, snd_pcm_channel_area_addr, hw, if_neg hne]
    norm_num
    rw [silenceLoopW_char (c * 64 / 8) 8 _ (by norm_num) (by omega)]

/-- A sample slot shorter than the stride keeps its residue when the stride
divides the modulus. -/
theorem mod_small_eq (m c r : Nat) (h : r % (c * m) < m) :
    r % (c * m) = r % m := by
  have h1 : r % (c * m) % m = r % m := Nat.mod_mod_of_dvd r ⟨c, by ring⟩
  rw [← h1, Nat.mod_eq_of_lt h]

/-- Shifting by one sample width preserves the residue. -/
theorem sub_m_mod (m r : Nat) (h : m ≤ r) : (r - m) % m = r % m := by
  conv_rhs => rw [show r = (r - m) + m by omega]
  rw [Nat.add_mod_right]

/-- Region bookkeeping for peeling the first channel off a run: byte offset
`r` lies in the first `j+1` sample slots of a frame window iff it lies in
the first channel's slot or, shifted by one sample width, in the first `j`
slots.  (`m` = bytes per sample, `c*m` = bytes per frame, `frames`
samples per channel.) -/
theorem run_step_region (m c frames j r : Nat) (hm : 0 < m) (hj : j + 1 ≤ c) :
    (r / (c * m) < frames ∧ r % (c * m) / m < j + 1) ↔
      ((m ≤ r ∧ (r - m) / (c * m) < frames ∧ (r - m) % (c * m) / m < j) ∨
       (r % (c * m) < m ∧ r / (c * m) < frames)) := by
  have hc0 : 0 < c := by omega
  have hM : 0 < c * m := Nat.mul_pos hc0 hm
  have hdm := Nat.div_add_mod r (c * m)
  have hrlt : r % (c * m) < c * m := Nat.mod_lt _ hM
  have hsm2 := Nat.div_add_mod (r % (c * m)) m
  have hslt : r % (c * m) % m < m := Nat.mod_lt _ hm
  constructor
  · rintro ⟨he, hs⟩
    by_cases hA : r % (c * m) < m
    · exact Or.inr ⟨hA, he⟩
    · left
      have hmr : m ≤ r := le_trans (by omega) (Nat.mod_le r (c * m))
      have hrm : r - m = c * m * (r / (c * m)) + (r % (c * m) - m) := by omega
      have hlt : r % (c * m) - m < c * m := by omega
      have hdiv : (r - m) / (c * m) = r / (c * m) := by
        rw [hrm, Nat.mul_add_div hM, Nat.div_eq_of_lt hlt]
        omega
      have hmod : (r - m) % (c * m) = r % (c * m) - m := by
        rw [hrm, Nat.mul_add_mod, Nat.mod_eq_of_lt hlt]
      refine ⟨hmr, by rw [hdiv]; exact he, ?_⟩
      rw [hmod]
      have hs1 : 1 ≤ r % (c * m) / m := by
        by_contra hh
        push_neg at hh
        have h0 : r % (c * m) / m = 0 := Nat.lt_one_iff.mp hh
        rw [h0] at hsm2
        omega
      have hx : r % (c * m) - m =
          m * (r % (c * m) / m - 1) + r % (c * m) % m := by
        have hmm : m * (r % (c * m) / m) = m * (r % (c * m) / m - 1) + m := by
          calc m * (r % (c * m) / m)
              = m * ((r % (c * m) / m - 1) + 1) := by
                congr 1
                omega
            _ = m * (r % (c * m) / m - 1) + m := by ring
        omega
      rw [hx, Nat.mul_add_div hm, Nat.div_eq_of_lt hslt]
      omega
  · rintro (⟨hmr, he, hs⟩ | ⟨hA, he⟩)
    · have hdm2 := Nat.div_add_mod (r - m) (c * m)
      have hu : (r - m) % (c * m) < j * m := (Nat.div_lt_iff_lt_mul hm).mp hs
      have hsum : (r - m) % (c * m) + m < c * m := by
        have h3 : (j + 1) * m ≤ c * m := Nat.mul_le_mul_right m hj
        have h4 : (j + 1) * m = j * m + m := by ring
        omega
      have hr' : r = c * m * ((r - m) / (c * m)) + ((r - m) % (c * m) + m) := by
        omega
      have hdivr : r / (c * m) = (r - m) / (c * m) := by
        conv_lhs => rw [hr']
        rw [Nat.mul_add_div hM, Nat.div_eq_of_lt hsum]
        omega
      have hmodr : r % (c * m) = (r - m) % (c * m) + m := by
        conv_lhs => rw [hr']
        rw [Nat.mul_add_mod, Nat.mod_eq_of_lt hsum]
      refine ⟨by rw [hdivr]; exact he, ?_⟩
      rw [hmodr, Nat.add_div_right _ hm]
      omega
    · refine ⟨he, ?_⟩
      have h0 : r % (c * m) / m = 0 := Nat.div_eq_of_lt hA
      omega

/-- Pointwise effect of the per-channel path on a run of `j` adjacent
channels (stride `c*w`, widths one sample apart): bytes covered are exactly
the first `j` sample slots of each frame window, and they carry the silence
pattern. -/
theorem perChannelSilence_run_char (fmt : Format) (w c : Nat)
    (hw : snd_pcm_format_physical_width fmt = w)
    (hws : w = 8 ∨ w = 16 ∨ w = 32 ∨ w = 64) (hc : 2 ≤ c)
    (ofs frames base : Nat) :
    ∀ (j first0 : Nat) (mem : Mem) (q : Nat), j ≤ c →
      perChannelSilence (runAreas base first0 (c * w) w j) ofs frames fmt mem q =
        if base + first0 / 8 + ofs * (c * w) / 8 ≤ q ∧
            (q - (base + first0 / 8 + ofs * (c * w) / 8)) / (c * (w / 8)) <
              frames ∧
            (q - (base + first0 / 8 + ofs * (c * w) / 8)) % (c * (w / 8)) /
              (w / 8) < j then
          byteOf (snd_pcm_format_silence_64 fmt)
            ((q - (base + first0 / 8 + ofs * (c * w) / 8)) % (w / 8))
        else mem q := by
  have hm : 0 < w / 8 := by rcases hws with rfl | rfl | rfl | rfl <;> norm_num
  have hw8 : w = 8 * (w / 8) := by
    rcases hws with rfl | rfl | rfl | rfl <;> norm_num
  have hcm : c * w / 8 = c * (w / 8) := by
    conv_lhs => rw [hw8]
    rw [show c * (8 * (w / 8)) = c * (w / 8) * 8 by ring,
      Nat.mul_div_cancel _ (by norm_num : (0:Nat) < 8)]
  intro j
  induction j with
  | zero =>
    intro first0 mem q _
    simp only [runAreas, perChannelSilence, List.foldl_nil]
    rw [if_neg (fun h => absurd h.2.2 (Nat.not_lt_zero _))]
  | succ j ih =>
    intro first0 mem q hj
    simp only [runAreas, perChannelSilence, List.foldl_cons]
    have ih' := ih (first0 + w)
      (snd_pcm_area_silence ⟨some base, first0, c * w⟩ ofs frames fmt mem) q
      (by omega)
    simp only [perChannelSilence] at ih'
    rw [ih']
    rw [area_silence_strided_char fmt w c hw hws hc base first0 ofs frames mem q]
    have hshift : (first0 + w) / 8 = first0 / 8 + w / 8 := by
      conv_lhs => rw [hw8]
      rw [Nat.add_mul_div_left _ _ (by norm_num : (0:Nat) < 8)]
    rw [hshift, hcm]
    have hqd : q - (base + (first0 / 8 + w / 8) + ofs * (c * w) / 8) =
        q - (base + first0 / 8 + ofs * (c * w) / 8) - w / 8 := by omega
    rw [hqd]
    have hregion := run_step_region (w / 8) c frames j
      (q - (base + first0 / 8 + ofs * (c * w) / 8)) hm (by omega)
    split_ifs with h1 h2 h2 h3 h3
    · congr 1
      exact sub_m_mod (w / 8) _ (by omega)
    · have hT := hregion.mpr (Or.inl ⟨by omega, h1.2.1, h1.2.2⟩)
      exact absurd ⟨by omega, hT.1, hT.2⟩ h2
    · congr 1
      exact mod_small_eq (w / 8) c _ h2.2.2
    · have hT := hregion.mpr (Or.inr ⟨h2.2.2, h2.2.1⟩)
      exact absurd ⟨h2.1, hT.1, hT.2⟩ h3
    · rcases hregion.mp ⟨h3.2.1, h3.2.2⟩ with hB | hA
      · exact absurd ⟨by omega, hB.2.1, hB.2.2⟩ h1
      · exact absurd ⟨h3.1, hA.2, hA.1⟩ h2
    · rfl

/-- The run scan recognizes a full synthetic run. -/
theorem silenceRunLen_runAreas (w base step : Nat) :
    ∀ (j first0 : Nat),
      silenceRunLen w (some base) step first0
        (runAreas base (first0 + w) step w j) = j := by
  intro j
  induction j with
  | zero => intro first0; rfl
  | succ j ih =>
    intro first0
    show (if (some base : Option Nat) = some base ∧ step = step ∧
        first0 + w = first0 + w then
      1 + silenceRunLen w (some base) step (first0 + w)
        (runAreas base (first0 + w + w) step w j)
      else 0) = j + 1
    rw [if_pos ⟨rfl, rfl, rfl⟩, ih (first0 + w)]
    omega

/-- Length of a synthetic run. -/
theorem runAreas_length (base first0 step w : Nat) :
    ∀ c, (runAreas base first0 step w c).length = c := by
  intro c
  induction c generalizing first0 with
  | zero => rfl
  | succ c ih =>
    simp only [runAreas, List.length_cons]
    rw [ih (first0 + w)]

/-- The channel loop is the identity once the area list is exhausted. -/
theorem areas_silence_go_nil (fmt : Format) (ofs frames fuel : Nat)
    (mem : Mem) :
    snd_pcm_areas_silence_go fmt ofs frames fuel [] mem = mem := by
  cases fuel <;> rfl

/-- On a full collapsible run, `snd_pcm_areas_silence` takes the collapse
branch: one packed `snd_pcm_area_silence` call over the synthetic area with
`step = width`, offsets and counts scaled by the run length. -/
theorem areas_silence_run_eq_collapsed (fmt : Format) (w c : Nat)
    (hw : snd_pcm_format_physical_width fmt = w) (hc : 2 ≤ c)
    (base first0 ofs frames : Nat) (mem : Mem) :
    snd_pcm_areas_silence (runAreas base first0 (c * w) w c) ofs frames fmt
        mem =
      snd_pcm_area_silence ⟨some base, first0, w⟩ (ofs * c) (frames * c) fmt
        mem := by
  obtain ⟨c', rfl⟩ : ∃ c', c = c' + 1 := ⟨c - 1, by omega⟩
  unfold snd_pcm_areas_silence
  rw [runAreas_length]
  simp only [runAreas, snd_pcm_areas_silence_go, hw]
  rw [silenceRunLen_runAreas]
  rw [if_pos (⟨by omega, by ring⟩ :
    1 < 1 + c' ∧ (1 + c') * w = (c' + 1) * w)]
  rw [show 1 + c' - 1 = c' from by omega]
  have hdrop : (runAreas base (first0 + w) ((c' + 1) * w) w c').drop c' = [] := by
    have hl := runAreas_length base (first0 + w) ((c' + 1) * w) w c'
    have h2 : (runAreas base (first0 + w) ((c' + 1) * w) w c').length ≤ c' := by
      omega
    exact List.drop_eq_nil_of_le h2
  rw [hdrop]
  rw [areas_silence_go_nil]
  rw [show 1 + c' = c' + 1 from by omega]

/-- The collapsed-run fast path of `snd_pcm_areas_silence` is bit-identical
to the per-channel path on a full collapsible run, for byte-multiple
widths. -/
theorem areas_silence_run_eq_perChannel (fmt : Format) (w c : Nat)
    (hw : snd_pcm_format_physical_width fmt = w)
    (hws : w = 8 ∨ w = 16 ∨ w = 32 ∨ w = 64) (hc : 2 ≤ c)
    (base first0 ofs frames : Nat) (mem : Mem) :
    snd_pcm_areas_silence (runAreas base first0 (c * w) w c) ofs frames fmt
        mem =
      perChannelSilence (runAreas base first0 (c * w) w c) ofs frames fmt
        mem := by
  obtain ⟨m, hm14, rfl⟩ : ∃ m, (m = 1 ∨ m = 2 ∨ m = 4 ∨ m = 8) ∧ w = 8 * m := by
    rcases hws with rfl | rfl | rfl | rfl
    · exact ⟨1, by norm_num, by norm_num⟩
    · exact ⟨2, by norm_num, by norm_num⟩
    · exact ⟨4, by norm_num, by norm_num⟩
    · exact ⟨8, by norm_num, by norm_num⟩
  have hm' : 0 < m := by rcases hm14 with rfl | rfl | rfl | rfl <;> norm_num
  have hM : 0 < c * m := Nat.mul_pos (by omega) hm'
  funext q
  rw [areas_silence_run_eq_collapsed fmt (8 * m) c hw hc base first0 ofs frames
    mem]
  rw [area_silence_packed_char fmt (8 * m) hw hws base first0 (ofs * c)
    (frames * c) mem q]
  rw [perChannelSilence_run_char fmt (8 * m) c hw hws hc ofs frames base c
    first0 mem q (le_refl c)]
  have hdiv8 : 8 * m / 8 = m := Nat.mul_div_cancel_left m (by norm_num)
  have hofs1 : ofs * (c * (8 * m)) / 8 = ofs * c * m := by
    rw [show ofs * (c * (8 * m)) = ofs * c * m * 8 by ring]
    exact Nat.mul_div_cancel _ (by norm_num)
  rw [hdiv8, hofs1]
  have hring : frames * c * m = frames * (c * m) := by ring
  split_ifs with h1 h2 h2
  · rfl
  · exfalso
    refine h2 ⟨h1.1, ?_, ?_⟩
    · refine (Nat.div_lt_iff_lt_mul hM).mpr ?_
      omega
    · exact (Nat.div_lt_iff_lt_mul hm').mpr (Nat.mod_lt _ hM)
  · exfalso
    have hlt := (Nat.div_lt_iff_lt_mul hM).mp h2.2.1
    exact h1 ⟨h2.1, by omega⟩
  · rfl

/-! ## Pointwise characterization of the copy loops -/

/-- Byte `t` of an `n`-byte little-endian load is the byte at `p + t`. -/
theorem loadLE_byte :
    ∀ (n : Nat) (mem : Mem) (p t : Nat), t < n →
      byteOf (loadLE mem p n) t = mem (p + t) % 256 := by
  intro n
  induction n with
  | zero =>
    intro mem p t ht
    omega
  | succ n ih =>
    intro mem p t ht
    cases t with
    | zero =>
      simp only [loadLE, byteOf, pow_zero, Nat.div_one]
      rw [Nat.add_mul_mod_self_left]
      simp only [Nat.add_zero]
      omega
    | succ t =>
      simp only [loadLE, byteOf]
      have hpow : (256 : Nat) ^ (t + 1) = 256 * 256 ^ t := by ring
      rw [hpow, ← Nat.div_div_eq_div_mul]
      have hv : (mem p % 256 + 256 * loadLE mem (p + 1) n) / 256 =
          loadLE mem (p + 1) n := by
        rw [Nat.add_mul_div_left _ _ (by norm_num : (0:Nat) < 256)]
        have : mem p % 256 / 256 = 0 :=
          Nat.div_eq_of_lt (Nat.mod_lt _ (by norm_num))
        omega
      rw [hv]
      have := ih mem (p + 1) t (by omega)
      simp only [byteOf] at this
      rw [this]
      congr 2
      omega

/-- Effect of the per-sample copy loop at equal strides `S` and store width
`bytes ≤ S`, when the `n` source windows and `n` destination windows are
disjoint: destination sample `k` byte `t` receives the source byte at the
same sample offset, and sources are never overwritten. -/
theorem copyLoopW_char (S bytes : Nat) (hb : 0 < bytes) (hbs : bytes ≤ S) :
    ∀ (n : Nat) (mem : Mem) (src dst q : Nat),
      (dst + n * S + bytes ≤ src ∨ src + n * S + bytes ≤ dst) →
      copyLoopW mem src dst S S bytes n q =
        if dst ≤ q ∧ (q - dst) / S < n ∧ (q - dst) % S < bytes then
          mem (src + (q - dst)) % 256
        else mem q := by
  have hS : 0 < S := lt_of_lt_of_le hb hbs
  intro n
  induction n with
  | zero =>
    intro mem src dst q _
    simp only [copyLoopW]
    rw [if_neg (fun h => absurd h.2.1 (Nat.not_lt_zero _))]
  | succ n ih =>
    intro mem src dst q hdisj
    simp only [copyLoopW]
    have hring : (n + 1) * S = n * S + S := by ring
    have hdisj' : dst + S + n * S + bytes ≤ src + S ∨
        src + S + n * S + bytes ≤ dst + S := by omega
    rw [ih (storeLE mem dst bytes (loadLE mem src bytes)) (src + S) (dst + S)
      q hdisj']
    by_cases hq : dst + S ≤ q
    · have hmod : (q - (dst + S)) % S = (q - dst) % S := by
        have he : q - dst = S + (q - (dst + S)) := by omega
        rw [he, Nat.add_mod_left]
      have hdiv : (q - (dst + S)) / S + 1 = (q - dst) / S := by
        have he : q - dst = (q - (dst + S)) + S := by omega
        rw [he, Nat.add_div_right _ hS]
      by_cases hc : (q - (dst + S)) / S < n ∧ (q - (dst + S)) % S < bytes
      · rw [if_pos ⟨hq, hc.1, hc.2⟩]
        rw [if_pos ⟨by omega, by omega, by omega⟩]
        -- the read position is outside the destination write window
        have hpos : src + S + (q - (dst + S)) = src + (q - dst) := by omega
        rw [hpos]
        have hqlt : q - dst < (n + 1) * S := by
          have h2 := (Nat.div_lt_iff_lt_mul hS).mp (show (q - dst) / S < n + 1 by omega)
          omega
        unfold storeLE
        rw [if_neg (by omega)]
      · have hnc : ¬(dst ≤ q ∧ (q - dst) / S < n + 1 ∧ (q - dst) % S < bytes) := by
          intro hfull
          exact hc ⟨by omega, by omega⟩
        rw [if_neg (fun hfull => hc ⟨hfull.2.1, hfull.2.2⟩), if_neg hnc]
        unfold storeLE
        rw [if_neg (by omega)]
    · rw [if_neg (fun hfull => hq hfull.1)]
      unfold storeLE
      have hm : (q - dst) % S = q - dst := Nat.mod_eq_of_lt (by omega)
      have hd : (q - dst) / S = 0 := Nat.div_eq_of_lt (by omega)
      by_cases h2 : dst ≤ q ∧ q < dst + bytes
      · rw [if_pos h2, if_pos ⟨h2.1, by omega, by omega⟩]
        rw [loadLE_byte bytes mem src (q - dst) (by omega)]
      · have hnc : ¬(dst ≤ q ∧ (q - dst) / S < n + 1 ∧ (q - dst) % S < bytes) := by
          intro hfull
          exact h2 ⟨hfull.1, by omega⟩
        rw [if_neg h2, if_neg hnc]

/-- Effect of `snd_pcm_area_copy` on packed areas (both steps equal to a
byte-multiple width): one `memcpy` of `samples * width/8` bytes, no
per-sample residue. -/
theorem area_copy_packed_char (fmt : Format) (w : Nat)
    (hw : snd_pcm_format_physical_width fmt = w)
    (hws : w = 8 ∨ w = 16 ∨ w = 32 ∨ w = 64)
    (sbase dbase sf df sofs dofs samples : Nat) (mem : Mem) :
    snd_pcm_area_copy ⟨some dbase, df, w⟩ dofs ⟨some sbase, sf, w⟩ sofs
        samples fmt mem =
      memcpyBytes mem (dbase + df / 8 + dofs * w / 8)
        (sbase + sf / 8 + sofs * w / 8) (samples * w / 8) := by
  rcases hws with rfl | rfl | rfl | rfl
  · simp only [snd_pcm_area_copy, snd_pcm_channel_area_addr, hw]
    norm_num
    rfl
  · simp only [snd_pcm_area_copy, snd_pcm_channel_area_addr, hw]
    norm_num
    rw [show samples - samples * 16 / 8 * 8 / 16 = 0 from by omega]
    rfl
  · simp only [snd_pcm_area_copy, snd_pcm_channel_area_addr, hw]
    norm_num
    rw [show samples - samples * 32 / 8 * 8 / 32 = 0 from by omega]
    rfl
  · simp only [snd_pcm_area_copy, snd_pcm_channel_area_addr, hw]
    norm_num
    rw [show samples - samples * 64 / 8 * 8 / 64 = 0 from by omega]
    rfl

/-- Effect of `snd_pcm_area_copy` on strided areas (both steps `c * width`,
`c ≥ 2`) with disjoint source and destination windows: destination sample
`k` receives source sample `k`, byte for byte. -/
theorem area_copy_strided_char (fmt : Format) (w c : Nat)
    (hw : snd_pcm_format_physical_width fmt = w)
    (hws : w = 8 ∨ w = 16 ∨ w = 32 ∨ w = 64) (hc : 2 ≤ c)
    (sbase dbase sf df sofs dofs samples : Nat) (mem : Mem) (q : Nat)
    (hdisj :
      dbase + df / 8 + dofs * (c * w) / 8 + samples * (c * w / 8) + w / 8 ≤
          sbase + sf / 8 + sofs * (c * w) / 8 ∨
        sbase + sf / 8 + sofs * (c * w) / 8 + samples * (c * w / 8) + w / 8 ≤
          dbase + df / 8 + dofs * (c * w) / 8) :
    snd_pcm_area_copy ⟨some dbase, df, c * w⟩ dofs ⟨some sbase, sf, c * w⟩
        sofs samples fmt mem q =
      if dbase + df / 8 + dofs * (c * w) / 8 ≤ q ∧
          (q - (dbase + df / 8 + dofs * (c * w) / 8)) / (c * w / 8) <
            samples ∧
          (q - (dbase + df / 8 + dofs * (c * w) / 8)) % (c * w / 8) <
            w / 8 then
        mem (sbase + sf / 8 + sofs * (c * w) / 8 +
          (q - (dbase + df / 8 + dofs * (c * w) / 8))) % 256
      else mem q := by
  rcases hws with rfl | rfl | rfl | rfl
  · have hne : ¬(c * 8 = 8 ∧ c * 8 = 8) := fun h => by omega
    simp only [snd_pcm_area_copy, snd_pcm_channel_area_addr, hw, if_neg hne]
    norm_num
    norm_num at hdisj
    rw [copyLoopW_char c 1 (by norm_num) (by omega) samples mem
      (sbase + sf / 8 + sofs * (c * 8) / 8)
      (dbase + df / 8 + dofs * (c * 8) / 8) q (by omega)]
    simp only [Nat.lt_one_iff]
  · have hne : ¬(c * 16 = 16 ∧ c * 16 = 16) := fun h => by omega
    simp only [snd_pcm_area_copy, snd_pcm_channel_area_addr, hw, if_neg hne]
    norm_num
    norm_num at hdisj
    rw [copyLoopW_char (c * 16 / 8) 2 (by norm_num) (by omega) samples mem
      (sbase + sf / 8 + sofs * (c * 16) / 8)
      (dbase + df / 8 + dofs * (c * 16) / 8) q (by omega)]
  · have hne : ¬(c * 32 = 32 ∧ c * 32 = 32) := fun h => by omega
    simp only [snd_pcm_area_copy, snd_pcm_channel_area_addr, hw, if_neg hne]
    norm_num
    norm_num at hdisj
    rw [copyLoopW_char (c * 32 / 8) 4 (by norm_num) (by omega) samples mem
      (sbase + sf / 8 + sofs * (c * 32) / 8)
      (dbase + df / 8 + dofs * (c * 32) / 8) q (by omega)]
  · have hne : ¬(c * 64 = 64 ∧ c * 64 = 64) := fun h => by omega
    simp only [snd_pcm_area_copy, snd_pcm_channel_area_addr, hw, if_neg hne]
    norm_num
    norm_num at hdisj
    rw [copyLoopW_char (c * 64 / 8) 8 (by norm_num) (by omega) samples mem
      (sbase + sf / 8 + sofs * (c * 64) / 8)
      (dbase + df / 8 + dofs * (c * 64) / 8) q (by omega)]

/-- Pointwise effect of the per-channel copy path on a run of `j` adjacent
channel pairs (stride `c*w`): destination bytes of the first `j` sample
slots of each frame window receive the corresponding source bytes of the
original memory `mem0`; the source window is read-only (`HD` separates the
windows, `Agr` says `mem` still agrees with `mem0` on the source window). -/
theorem perChannelCopy_run_char (fmt : Format) (w c : Nat)
    (hw : snd_pcm_format_physical_width fmt = w)
    (hws : w = 8 ∨ w = 16 ∨ w = 32 ∨ w = 64) (hc : 2 ≤ c)
    (sofs dofs frames sbase dbase : Nat) (mem0 : Mem) :
    ∀ (j sf0 df0 : Nat) (mem : Mem) (q : Nat), j ≤ c →
      (dbase + df0 / 8 + dofs * (c * w) / 8 + frames * (c * (w / 8)) +
            w / 8 ≤ sbase + sf0 / 8 + sofs * (c * w) / 8 ∨
        sbase + sf0 / 8 + sofs * (c * w) / 8 + frames * (c * (w / 8)) +
            j * (w / 8) ≤ dbase + df0 / 8 + dofs * (c * w) / 8) →
      (∀ x, sbase + sf0 / 8 + sofs * (c * w) / 8 ≤ x →
          x < sbase + sf0 / 8 + sofs * (c * w) / 8 + frames * (c * (w / 8)) +
            j * (w / 8) →
          mem x = mem0 x) →
      perChannelCopy (runAreas dbase df0 (c * w) w j) dofs
          (runAreas sbase sf0 (c * w) w j) sofs frames fmt mem q =
        if dbase + df0 / 8 + dofs * (c * w) / 8 ≤ q ∧
            (q - (dbase + df0 / 8 + dofs * (c * w) / 8)) / (c * (w / 8)) <
              frames ∧
            (q - (dbase + df0 / 8 + dofs * (c * w) / 8)) % (c * (w / 8)) /
              (w / 8) < j then
          mem0 (sbase + sf0 / 8 + sofs * (c * w) / 8 +
            (q - (dbase + df0 / 8 + dofs * (c * w) / 8))) % 256
        else mem q := by
  have hm : 0 < w / 8 := by rcases hws with rfl | rfl | rfl | rfl <;> norm_num
  have hw8 : w = 8 * (w / 8) := by
    rcases hws with rfl | rfl | rfl | rfl <;> norm_num
  have hcm : c * w / 8 = c * (w / 8) := by
    conv_lhs => rw [hw8]
    rw [show c * (8 * (w / 8)) = c * (w / 8) * 8 by ring,
      Nat.mul_div_cancel _ (by norm_num : (0:Nat) < 8)]
  have hM : 0 < c * (w / 8) := Nat.mul_pos (by omega) hm
  intro j
  induction j with
  | zero =>
    intro sf0 df0 mem q _ _ _
    simp only [runAreas, perChannelCopy, List.zip_nil_left, List.foldl_nil]
    rw [if_neg (fun h => absurd h.2.2 (Nat.not_lt_zero _))]
  | succ j ih =>
    intro sf0 df0 mem q hj HD Agr
    simp only [runAreas, perChannelCopy, List.zip_cons_cons, List.foldl_cons]
    have hj1 : (j + 1) * (w / 8) = j * (w / 8) + w / 8 := by ring
    have hd' : dbase + df0 / 8 + dofs * (c * w) / 8 +
          frames * (c * w / 8) + w / 8 ≤
          sbase + sf0 / 8 + sofs * (c * w) / 8 ∨
        sbase + sf0 / 8 + sofs * (c * w) / 8 + frames * (c * w / 8) +
          w / 8 ≤ dbase + df0 / 8 + dofs * (c * w) / 8 := by
      rw [hcm]
      omega
    have hchar : ∀ x, snd_pcm_area_copy ⟨some dbase, df0, c * w⟩ dofs
        ⟨some sbase, sf0, c * w⟩ sofs frames fmt mem x =
        if dbase + df0 / 8 + dofs * (c * w) / 8 ≤ x ∧
            (x - (dbase + df0 / 8 + dofs * (c * w) / 8)) / (c * (w / 8)) <
              frames ∧
            (x - (dbase + df0 / 8 + dofs * (c * w) / 8)) % (c * (w / 8)) <
              w / 8 then
          mem (sbase + sf0 / 8 + sofs * (c * w) / 8 +
            (x - (dbase + df0 / 8 + dofs * (c * w) / 8))) % 256
        else mem x := by
      intro x
      have h := area_copy_strided_char fmt w c hw hws hc sbase dbase sf0 df0
        sofs dofs frames mem x hd'
      rw [hcm] at h
      exact h
    have hshiftd : (df0 + w) / 8 = df0 / 8 + w / 8 := by
      conv_lhs => rw [hw8]
      rw [Nat.add_mul_div_left _ _ (by norm_num : (0:Nat) < 8)]
    have hshifts : (sf0 + w) / 8 = sf0 / 8 + w / 8 := by
      conv_lhs => rw [hw8]
      rw [Nat.add_mul_div_left _ _ (by norm_num : (0:Nat) < 8)]
    have ih' := ih (sf0 + w) (df0 + w)
      (snd_pcm_area_copy ⟨some dbase, df0, c * w⟩ dofs
        ⟨some sbase, sf0, c * w⟩ sofs frames fmt mem) q (by omega)
      (by rw [hshiftd, hshifts]; omega)
      (by
        intro x hx1 hx2
        rw [hshifts] at hx1 hx2
        rw [hchar x]
        by_cases hreg : dbase + df0 / 8 + dofs * (c * w) / 8 ≤ x ∧
            (x - (dbase + df0 / 8 + dofs * (c * w) / 8)) / (c * (w / 8)) <
              frames ∧
            (x - (dbase + df0 / 8 + dofs * (c * w) / 8)) % (c * (w / 8)) <
              w / 8
        · exfalso
          have hlt := (Nat.div_lt_iff_lt_mul hM).mp hreg.2.1
          omega
        · rw [if_neg hreg]
          exact Agr x (by omega) (by omega))
    simp only [perChannelCopy] at ih'
    rw [ih']
    rw [hchar q]
    rw [hshiftd, hshifts]
    have hqd : q - (dbase + (df0 / 8 + w / 8) + dofs * (c * w) / 8) =
        q - (dbase + df0 / 8 + dofs * (c * w) / 8) - w / 8 := by omega
    rw [hqd]
    have hregion := run_step_region (w / 8) c frames j
      (q - (dbase + df0 / 8 + dofs * (c * w) / 8)) hm (by omega)
    split_ifs with h1 h2 h2 h3 h3
    · congr 2
      omega
    · have hT := hregion.mpr (Or.inl ⟨by omega, h1.2.1, h1.2.2⟩)
      exact absurd ⟨by omega, hT.1, hT.2⟩ h2
    · have hlt := (Nat.div_lt_iff_lt_mul hM).mp h2.2.1
      rw [Agr (sbase + sf0 / 8 + sofs * (c * w) / 8 +
        (q - (dbase + df0 / 8 + dofs * (c * w) / 8))) (by omega) (by omega)]
    · have hT := hregion.mpr (Or.inr ⟨h2.2.2, h2.2.1⟩)
      exact absurd ⟨h2.1, hT.1, hT.2⟩ h3
    · rcases hregion.mp ⟨h3.2.1, h3.2.2⟩ with hB | hA
      · exact absurd ⟨by omega, hB.2.1, hB.2.2⟩ h1
      · exact absurd ⟨h3.1, hA.2, hA.1⟩ h2
    · rfl

/-- The copy run scan recognizes a full synthetic run pair. -/
theorem copyRunCont_runAreas (w step sbase dbase : Nat) :
    ∀ (j sf0 df0 : Nat),
      copyRunCont w step (some sbase) (some dbase) sf0 df0
        (runAreas sbase (sf0 + w) step w j)
        (runAreas dbase (df0 + w) step w j) = j := by
  intro j
  induction j with
  | zero => intro sf0 df0; rfl
  | succ j ih =>
    intro sf0 df0
    show (if step = step ∧ (some sbase : Option Nat) = some sbase ∧
        (some dbase : Option Nat) = some dbase ∧ sf0 + w = sf0 + w ∧
        df0 + w = df0 + w then
      (if step = step then
        1 + copyRunCont w step (some sbase) (some dbase) (sf0 + w) (df0 + w)
          (runAreas sbase (sf0 + w + w) step w j)
          (runAreas dbase (df0 + w + w) step w j)
      else 0)
      else 0) = j + 1
    rw [if_pos ⟨rfl, rfl, rfl, rfl, rfl⟩, if_pos rfl, ih (sf0 + w) (df0 + w)]
    omega

/-- The copy channel loop is the identity once the lists are exhausted. -/
theorem areas_copy_go_nil (fmt : Format) (dofs sofs frames fuel : Nat)
    (mem : Mem) :
    snd_pcm_areas_copy_go fmt dofs sofs frames fuel [] [] mem = mem := by
  cases fuel <;> rfl

/-- On a full collapsible run pair, `snd_pcm_areas_copy` takes the collapse
branch: one packed `snd_pcm_area_copy` over the two synthetic areas with
`step = width`, offsets and counts scaled by the run length. -/
theorem areas_copy_run_eq_collapsed (fmt : Format) (w c : Nat)
    (hw : snd_pcm_format_physical_width fmt = w) (hc : 2 ≤ c)
    (sbase dbase sf0 df0 sofs dofs frames : Nat) (mem : Mem) :
    snd_pcm_areas_copy (runAreas dbase df0 (c * w) w c) dofs
        (runAreas sbase sf0 (c * w) w c) sofs frames fmt mem =
      snd_pcm_area_copy ⟨some dbase, df0, w⟩ (dofs * c)
        ⟨some sbase, sf0, w⟩ (sofs * c) (frames * c) fmt mem := by
  obtain ⟨c', rfl⟩ : ∃ c', c = c' + 1 := ⟨c - 1, by omega⟩
  unfold snd_pcm_areas_copy
  rw [runAreas_length]
  simp only [runAreas, snd_pcm_areas_copy_go, hw]
  simp only [if_true]
  rw [copyRunCont_runAreas]
  rw [if_pos (⟨by omega, by ring⟩ :
    1 < 1 + c' ∧ (1 + c') * w = (c' + 1) * w)]
  rw [show 1 + c' - 1 = c' from by omega]
  have hdrop1 : (runAreas sbase (sf0 + w) ((c' + 1) * w) w c').drop c' = [] := by
    have hl := runAreas_length sbase (sf0 + w) ((c' + 1) * w) w c'
    exact List.drop_eq_nil_of_le (by omega)
  have hdrop2 : (runAreas dbase (df0 + w) ((c' + 1) * w) w c').drop c' = [] := by
    have hl := runAreas_length dbase (df0 + w) ((c' + 1) * w) w c'
    exact List.drop_eq_nil_of_le (by omega)
  rw [hdrop1, hdrop2]
  rw [areas_copy_go_nil]
  rw [show 1 + c' = c' + 1 from by omega]

/-- The collapsed-run fast path of `snd_pcm_areas_copy` is bit-identical to
the per-channel path on a full collapsible run pair, for byte-multiple
widths and non-overlapping source and destination windows. -/
theorem areas_copy_run_eq_perChannel (fmt : Format) (w c : Nat)
    (hw : snd_pcm_format_physical_width fmt = w)
    (hws : w = 8 ∨ w = 16 ∨ w = 32 ∨ w = 64) (hc : 2 ≤ c)
    (sbase dbase sf0 df0 sofs dofs frames : Nat) (mem : Mem)
    (hdisj :
      dbase + df0 / 8 + dofs * (c * w) / 8 + frames * (c * (w / 8)) +
          w / 8 ≤ sbase + sf0 / 8 + sofs * (c * w) / 8 ∨
        sbase + sf0 / 8 + sofs * (c * w) / 8 + frames * (c * (w / 8)) +
          c * (w / 8) ≤ dbase + df0 / 8 + dofs * (c * w) / 8) :
    snd_pcm_areas_copy (runAreas dbase df0 (c * w) w c) dofs
        (runAreas sbase sf0 (c * w) w c) sofs frames fmt mem =
      perChannelCopy (runAreas dbase df0 (c * w) w c) dofs
        (runAreas sbase sf0 (c * w) w c) sofs frames fmt mem := by
  have hm : 0 < w / 8 := by rcases hws with rfl | rfl | rfl | rfl <;> norm_num
  have hw8 : w = 8 * (w / 8) := by
    rcases hws with rfl | rfl | rfl | rfl <;> norm_num
  have hM : 0 < c * (w / 8) := Nat.mul_pos (by omega) hm
  funext q
  rw [areas_copy_run_eq_collapsed fmt w c hw hc sbase dbase sf0 df0 sofs dofs
    frames mem]
  rw [area_copy_packed_char fmt w hw hws sbase dbase sf0 df0 (sofs * c)
    (dofs * c) (frames * c) mem]
  rw [perChannelCopy_run_char fmt w c hw hws hc sofs dofs frames sbase dbase
    mem c sf0 df0 mem q (le_refl c) hdisj (fun x _ _ => rfl)]
  simp only [memcpyBytes]
  rw [show dofs * c * w = dofs * (c * w) from by ring]
  rw [show sofs * c * w = sofs * (c * w) from by ring]
  have hN : frames * c * w / 8 = frames * (c * (w / 8)) := by
    conv_lhs => rw [hw8]
    rw [show frames * c * (8 * (w / 8)) = frames * (c * (w / 8)) * 8 by ring]
    exact Nat.mul_div_cancel _ (by norm_num)
  rw [hN]
  split_ifs with h1 h2 h2
  · rfl
  · exfalso
    refine h2 ⟨h1.1, ?_, ?_⟩
    · refine (Nat.div_lt_iff_lt_mul hM).mpr ?_
      omega
    · exact (Nat.div_lt_iff_lt_mul hm).mpr (Nat.mod_lt _ hM)
  · exfalso
    have hlt := (Nat.div_lt_iff_lt_mul hM).mp h2.2.1
    exact h1 ⟨h2.1, by omega⟩
  · rfl

/-- Claim C4 counterexample: for the width-4 format IMA_ADPCM on a
collapsible two-channel run (`first` 4 and 8, `step` 8), the collapsed fast
path and the per-channel path of `snd_pcm_areas_silence` differ at byte 0:
the collapsed 64-bit store clobbers the whole byte while the per-channel
nibble loop preserves its high nibble. -/
theorem collapsed_run_matches_per_channel_counterexample :
    snd_pcm_areas_silence (runAreas 0 4 8 4 2) 0 8 Format.ima_adpcm
        (fun _ => 0xFF) 0 = 0 ∧
      perChannelSilence (runAreas 0 4 8 4 2) 0 8 Format.ima_adpcm
        (fun _ => 0xFF) 0 = 0xF0 ∧
      (0 : Nat) ≠ 0xF0 :=
  ⟨rfl, rfl, by decide⟩

/-- Claim C4 (amended): on a full collapsible run pair, the collapsed-run
fast path of `snd_pcm_areas_silence` and `snd_pcm_areas_copy` is
bit-identical to the per-channel path, **provided** the format's physical
width is a whole number of bytes (8, 16, 32 or 64 bits — the width-4
formats break bit-identity, see the counterexample) and, for the copy, the
source and destination windows do not overlap (the fast path is a memcpy,
whose contract requires it). -/
theorem collapsed_run_matches_per_channel (fmt : Format) (w c : Nat)
    (hw : snd_pcm_format_physical_width fmt = w)
    (hws : w = 8 ∨ w = 16 ∨ w = 32 ∨ w = 64) (hc : 2 ≤ c)
    (sbase dbase sf0 df0 sofs dofs ofs frames : Nat) (mem : Mem)
    (hdisj :
      dbase + df0 / 8 + dofs * (c * w) / 8 + frames * (c * (w / 8)) +
          w / 8 ≤ sbase + sf0 / 8 + sofs * (c * w) / 8 ∨
        sbase + sf0 / 8 + sofs * (c * w) / 8 + frames * (c * (w / 8)) +
          c * (w / 8) ≤ dbase + df0 / 8 + dofs * (c * w) / 8) :
    snd_pcm_areas_silence (runAreas dbase df0 (c * w) w c) ofs frames fmt
        mem =
      perChannelSilence (runAreas dbase df0 (c * w) w c) ofs frames fmt
        mem ∧
    snd_pcm_areas_copy (runAreas dbase df0 (c * w) w c) dofs
        (runAreas sbase sf0 (c * w) w c) sofs frames fmt mem =
      perChannelCopy (runAreas dbase df0 (c * w) w c) dofs
        (runAreas sbase sf0 (c * w) w c) sofs frames fmt mem :=
  ⟨areas_silence_run_eq_perChannel fmt w c hw hws hc dbase df0 ofs frames
     mem,
   areas_copy_run_eq_perChannel fmt w c hw hws hc sbase dbase sf0 df0 sofs
     dofs frames mem hdisj⟩

/-- Witness for C4: a concrete two-channel S16_LE run with disjoint source
and destination windows. -/
theorem collapsed_run_matches_per_channel_witness :
    snd_pcm_areas_silence (runAreas 0 0 (2 * 16) 16 2) 0 2 Format.s16_le
        (fun q => q) =
      perChannelSilence (runAreas 0 0 (2 * 16) 16 2) 0 2 Format.s16_le
        (fun q => q) ∧
    snd_pcm_areas_copy (runAreas 0 0 (2 * 16) 16 2) 0
        (runAreas 100 0 (2 * 16) 16 2) 0 2 Format.s16_le (fun q => q) =
      perChannelCopy (runAreas 0 0 (2 * 16) 16 2) 0
        (runAreas 100 0 (2 * 16) 16 2) 0 2 Format.s16_le (fun q => q) :=
  collapsed_run_matches_per_channel Format.s16_le 16 2 rfl (by decide)
    (by decide) 100 0 0 0 0 0 0 2 (fun q => q) (by decide)

/-- Claim C7 counterexample: for IMA_ADPCM (width 4), area
`(base 0, first 4, step 4)`, 3 samples, `snd_pcm_area_silence` *changes*
byte 0's low nibble (it becomes the silence pattern 0), while the claim
says the low nibble stays unchanged (here 0xF). -/
theorem area_silence_width4_first4_nibbles_counterexample :
    snd_pcm_area_silence ⟨some 0, 4, 4⟩ 0 3 Format.ima_adpcm
        (fun _ => 0xFF) 0 % 16 = 0 ∧
      (0xFF : Nat) % 16 = 15 ∧ (0 : Nat) ≠ 15 :=
  ⟨rfl, rfl, by decide⟩

/-- Masking a byte to its low nibble and then to its high nibble clears
it. -/
theorem low_then_high_mask (x : Nat) : x &&& 0x0f &&& 0xf0 = 0 := by
  rw [Nat.and_assoc, show ((0x0f : Nat) &&& 0xf0) = 0 from by decide,
    Nat.and_zero]

/-- Claim C7 (amended): for the width-4 format IMA_ADPCM, area
`(base, first=4, step=4)` and 3 samples, `snd_pcm_area_silence` keeps byte
0's **high** nibble unchanged and sets its **low** nibble to the silence
pattern (the roles the claim assigns are swapped), sets both nibbles of
byte 1 to the silence pattern (which is 0), and touches no other byte. -/
theorem area_silence_width4_first4_nibbles (base : Nat) (mem : Mem) :
    snd_pcm_area_silence ⟨some base, 4, 4⟩ 0 3 Format.ima_adpcm mem =
      fun q =>
        if q = base then mem base &&& 0xf0
        else if q = base + 1 then 0
        else mem q := by
  have s1 : ∀ (m : Mem) (d : Nat), silenceLoop4 m d 4 0 4 0 0 3 =
      silenceLoop4 (fun q => if q = d then (m d &&& 0xf0) ||| 0 else m q)
        (d + 1) 0 0 4 0 0 2 := fun m d => rfl
  have s2 : ∀ (m : Mem) (d : Nat), silenceLoop4 m d 0 0 4 0 0 2 =
      silenceLoop4 (fun q => if q = d then (m d &&& 0x0f) ||| 0 else m q)
        d 4 0 4 0 0 1 := fun m d => rfl
  have s3 : ∀ (m : Mem) (d : Nat), silenceLoop4 m d 4 0 4 0 0 1 =
      fun q => if q = d then (m d &&& 0xf0) ||| 0 else m q :=
    fun m d => rfl
  have h0 : snd_pcm_area_silence ⟨some base, 4, 4⟩ 0 3 Format.ima_adpcm
      mem = silenceLoop4 mem base 4 0 4 0 0 3 := by
    simp [snd_pcm_area_silence, snd_pcm_channel_area_addr,
      snd_pcm_format_physical_width, snd_pcm_format_silence_64, write64s,
      Nat.zero_and]
  rw [h0, s1, s2, s3]
  funext q
  have hne : base + 1 ≠ base := by omega
  by_cases h1 : q = base + 1
  · subst h1
    simp [hne, Nat.or_zero, low_then_high_mask]
  · by_cases h2 : q = base
    · subst h2
      simp [h1, hne, Nat.or_zero]
    · simp [h1, h2]

end AlsaPcm
